import Mathlib

/-!
# Binary manager data (os/kernel/binary_manager/binary_manager_data.c)

A shallow embedding of the registry of user binaries, the kernel partition
data and the per-binary task list of the binary manager, together with the
properties of these operations.

Modelling conventions.

* A C string argument is a `List Nat` of bytes; the string it denotes ends at
  the first zero byte, or at the end of the list (where the terminating NUL
  sits).  A `char *` that may be `NULL` is an `Option (List Nat)`.
* A C array indexed by a slot number is a function from `Nat`.
* `g_bin_count` and `part_count` are `uint32_t`.  Each increment is guarded
  by a comparison with an array-size constant, so the counters are natural
  numbers and the conversions between `int` and `uint32_t` are the identity.
* Constants and types that the sources take from
  `tinyara/binary_manager.h`, `sys/types.h` and `queue.h` are the fields
  of `Config`, or are introduced with a remark.
-/

namespace BinaryManager

/-! ## Constants -/

/-- Build-time constants used by `binary_manager_data.c` that are defined
outside it. -/
structure Config where
  /-- Capacity of the user binary table (`bin_table` has one more entry). -/
  USER_BIN_COUNT : Nat
  /-- Capacity of `kernel_info.part_info`. -/
  KERNEL_BIN_COUNT : Nat
  /-- Size of the `bin_name` and kernel `name` character arrays. -/
  BIN_NAME_MAX : Nat
  /-- Size of the `bin_ver` character array. -/
  BIN_VER_MAX : Nat
  /-- Size of the `kernel_ver` and `version` character arrays. -/
  KERNEL_VER_MAX : Nat
  /-- The string `KERNEL_VER` (`CONFIG_VERSION_STRING`, or "2.0"). -/
  KERNEL_VER : List Nat
  /-- Number of bytes of `load_attr_t` that follow its member `bin_name`. -/
  LOAD_ATTR_REST : Nat
  /-- The notification code `BINARY_STARTED`. -/
  BINARY_STARTED : Nat

/-- The value `ERROR` of `sys/types.h`. -/
def ERROR : Int := -1

/-- Binary states, `enum binary_state_e`. -/
def BINARY_UNREGISTERED : Nat := 0
/-- Partition is registered, but binary is not loaded yet. -/
def BINARY_INACTIVE : Nat := 1
/-- Loading binary is done. -/
def BINARY_LOADING_DONE : Nat := 2
/-- Loaded binary gets scheduling. -/
def BINARY_RUNNING : Nat := 3
/-- Loaded binary would be unloaded. -/
def BINARY_WAITUNLOAD : Nat := 4
/-- Binary is excluded from scheduling and would be reloaded. -/
def BINARY_FAULT : Nat := 5
/-- Number of binary states. -/
def BINARY_STATE_MAX : Nat := 6

/-! ## Data types -/

/-- A node of a state callback list, `statecb_node_t` (the `flink` member is
the list structure itself). -/
structure statecb_node_t where
  pid : Int
  cb_info : Nat
deriving DecidableEq, Repr

/-- The load attributes of a user binary.  Only the member `bin_name` is
accessed by `binary_manager_data.c`; the members declared after it are kept
as the raw bytes they occupy. -/
structure load_attr_t where
  /-- The member `char bin_name[BIN_NAME_MAX]`. -/
  bin_name : List Nat
  /-- The bytes of the members that follow `bin_name`. -/
  rest : List Nat
deriving DecidableEq, Repr

/-- User binary data type in binary table, `binmgr_uinfo_t`. -/
structure binmgr_uinfo_t where
  bin_id : Int
  state : Nat
  rttype : Nat
  rtcount : Nat
  load_attr : load_attr_t
  bin_ver : List Nat
  kernel_ver : List Nat
  cb_list : List statecb_node_t
deriving DecidableEq, Repr

/-- One kernel partition, `part_info_t`. -/
structure part_info_t where
  part_size : Int
  part_num : Int
deriving DecidableEq, Repr

/-- Kernel binary data type in kernel table, `binmgr_kinfo_t`. -/
structure binmgr_kinfo_t where
  name : List Nat
  inuse_idx : Nat
  part_count : Nat
  part_info : Nat → part_info_t
  version : List Nat

/-- The file-scope variables `bin_table`, `g_bin_count` and `kernel_info`. -/
structure State where
  bin_table : Nat → binmgr_uinfo_t
  g_bin_count : Nat
  kernel_info : binmgr_kinfo_t

/-- A zero-initialised table entry. -/
def zero_uinfo (cfg : Config) : binmgr_uinfo_t :=
  { bin_id := 0, state := 0, rttype := 0, rtcount := 0,
    load_attr := { bin_name := List.replicate cfg.BIN_NAME_MAX 0,
                   rest := List.replicate cfg.LOAD_ATTR_REST 0 },
    bin_ver := List.replicate cfg.BIN_VER_MAX 0,
    kernel_ver := List.replicate cfg.KERNEL_VER_MAX 0,
    cb_list := [] }

/-- The state at start-up: objects of static storage duration are
zero-initialised. -/
def init (cfg : Config) : State :=
  { bin_table := fun _ => zero_uinfo cfg,
    g_bin_count := 0,
    kernel_info :=
      { name := List.replicate cfg.BIN_NAME_MAX 0,
        inuse_idx := 0,
        part_count := 0,
        part_info := fun _ => { part_size := 0, part_num := 0 },
        version := List.replicate cfg.KERNEL_VER_MAX 0 } }

/-! ## String functions of `string.h` -/

/-- The function `strlen`: the number of bytes before the first NUL. -/
def strlen : List Nat → Nat
  | [] => 0
  | c :: cs => if c = 0 then 0 else strlen cs + 1

/-- The function `strncpy(dest, src, n)`, as the `n` bytes it writes to
`dest`: the bytes of `src` up to its NUL, then NUL bytes up to `n`; no NUL
is written when `src` has `n` or more bytes before its NUL. -/
def strncpy : List Nat → Nat → List Nat
  | _, 0 => []
  | [], n + 1 => 0 :: strncpy [] n
  | c :: cs, n + 1 => if c = 0 then List.replicate (n + 1) 0 else c :: strncpy cs n

/-- The function `strncmp(s1, s2, n)` from offset `i` on, `s1` being read
from memory through `s1` (`none`: the byte is outside the memory that is
modelled) and `s2` being a string.  The comparison ends after `n` bytes, at
the first difference, or at a NUL. -/
def strncmp (s1 : Nat → Option Nat) (s2 : List Nat) : Nat → Nat → Option Int
  | 0, _ => some 0
  | n + 1, i =>
    match s1 i with
    | none => none
    | some c1 =>
      if c1 ≠ s2.getD i 0 then some ((c1 : Int) - (s2.getD i 0 : Int))
      else if c1 = 0 then some 0
      else strncmp s1 s2 n (i + 1)

/-! ## Accessors -/

/-- Gets the number of user binaries. -/
def binary_manager_get_ucount (st : State) : Nat :=
  st.g_bin_count

/-- Gets the number of partitions for kernel. -/
def binary_manager_get_kcount (st : State) : Nat :=
  st.kernel_info.part_count

/-- Gets a row of binary table with bin_idx. -/
def binary_manager_get_udata (st : State) (bin_idx : Nat) : binmgr_uinfo_t :=
  st.bin_table bin_idx

/-- Gets the kernel data. -/
def binary_manager_get_kdata (st : State) : binmgr_kinfo_t :=
  st.kernel_info

/-- The memory read through the pointer `BIN_NAME(bin_idx)`: byte `i` of
`bin_name` for `i < BIN_NAME_MAX`; beyond the array, the bytes that follow it
inside the table entry (the rest of `load_attr`, then `bin_ver` and
`kernel_ver`). -/
def BIN_NAME_mem (cfg : Config) (u : binmgr_uinfo_t) (i : Nat) : Option Nat :=
  if i < cfg.BIN_NAME_MAX then some (u.load_attr.bin_name.getD i 0)
  else (u.load_attr.rest ++ u.bin_ver ++ u.kernel_ver).get? (i - cfg.BIN_NAME_MAX)

/-! ## Registration of user binaries -/

/-- The loop `for (bin_idx = 1; bin_idx <= g_bin_count; bin_idx++)` of
`binary_manager_register_ubin`, with `k` iterations left: `some true` when
a slot compares equal to `name` (the loop returns at the first one). -/
def ubin_scan (cfg : Config) (tbl : Nat → binmgr_uinfo_t) (name : List Nat) :
    Nat → Nat → Option Bool
  | 0, _ => some false
  | k + 1, bin_idx =>
    match strncmp (BIN_NAME_mem cfg (tbl bin_idx)) name (strlen name + 1) 0 with
    | none => none
    | some r => if r = 0 then some true else ubin_scan cfg tbl name k (bin_idx + 1)

/-- The function `binary_manager_register_ubin`: the returned value and the
state after the call; `none` when the name comparison reads memory outside
the table entry. -/
def binary_manager_register_ubin (cfg : Config) (st : State) :
    Option (List Nat) → Option (Int × State)
  | none => some (ERROR, st)
  | some name =>
    if st.g_bin_count ≥ cfg.USER_BIN_COUNT then some (ERROR, st)
    else
      match ubin_scan cfg st.bin_table name st.g_bin_count 1 with
      | none => none
      | some true => some (ERROR, st)
      | some false =>
        let g_bin_count := st.g_bin_count + 1
        let u := st.bin_table g_bin_count
        let u1 : binmgr_uinfo_t :=
          { u with
            bin_id := -1,
            rtcount := 0,
            state := BINARY_INACTIVE,
            load_attr := { u.load_attr with bin_name := strncpy name cfg.BIN_NAME_MAX },
            cb_list := [] }
        some ((g_bin_count : Int),
              { st with
                g_bin_count := g_bin_count,
                bin_table := Function.update st.bin_table g_bin_count u1 })

/-- The sequence of calls `binary_manager_register_ubin(name)` for the names
of a list, in order; `none` when one of the calls is undefined. -/
def run_ubin (cfg : Config) : State → List (Option (List Nat)) → Option State
  | st, [] => some st
  | st, name :: names =>
    match binary_manager_register_ubin cfg st name with
    | none => none
    | some r => run_ubin cfg r.2 names

/-- The names stored in the slots `1..g_bin_count` are pairwise distinct. -/
def names_distinct (st : State) : Prop :=
  ∀ i j, 1 ≤ i → i < j → j ≤ st.g_bin_count →
    (st.bin_table i).load_attr.bin_name ≠ (st.bin_table j).load_attr.bin_name

/-! ## Registration of kernel partitions -/

/-- The string "kernel". -/
def kernel_str : List Nat := [107, 101, 114, 110, 101, 108]

/-- The function `binary_manager_register_kpart`. -/
def binary_manager_register_kpart (cfg : Config) (st : State) (part_num part_size : Int) :
    State :=
  if part_num < 0 ∨ part_size ≤ 0 ∨ st.kernel_info.part_count ≥ cfg.KERNEL_BIN_COUNT then st
  else
    let part_count := st.kernel_info.part_count
    let k1 : binmgr_kinfo_t :=
      if part_count = 0 then
        { st.kernel_info with
          name := strncpy kernel_str cfg.BIN_NAME_MAX,
          version := strncpy cfg.KERNEL_VER cfg.KERNEL_VER_MAX }
      else st.kernel_info
    { st with
      kernel_info :=
        { k1 with
          part_info :=
            Function.update k1.part_info part_count
              { part_size := part_size, part_num := part_num },
          part_count := k1.part_count + 1 } }

/-- The sequence of calls `binary_manager_register_kpart(part_num, part_size)`
for the argument pairs of a list, in order. -/
def run_kpart (cfg : Config) : State → List (Int × Int) → State
  | st, [] => st
  | st, c :: cs => run_kpart cfg (binary_manager_register_kpart cfg st c.1 c.2) cs

/-- The argument check of `binary_manager_register_kpart`. -/
def kpart_args_ok (c : Int × Int) : Bool :=
  decide (0 ≤ c.1) && decide (0 < c.2)

/-- The partition list `part_info[0..part_count)`. -/
def kpart_list (k : binmgr_kinfo_t) : List part_info_t :=
  (List.range k.part_count).map k.part_info

/-! ## Update of the running state -/

/-- Modelled from the spec: the linear scan of
`binary_manager_get_index_with_binid`, which is defined outside the source
files, over the slots `bin_idx, bin_idx + 1, ...`, with `k` slots left; the
first slot whose `bin_id` matches is returned, `ERROR` when there is none. -/
def index_scan (tbl : Nat → binmgr_uinfo_t) (bin_id : Int) : Nat → Nat → Int
  | 0, _ => ERROR
  | k + 1, bin_idx =>
    if (tbl bin_idx).bin_id = bin_id then (bin_idx : Int)
    else index_scan tbl bin_id k (bin_idx + 1)

/-- Modelled from the spec: `binary_manager_get_index_with_binid` is declared
in `binary_manager.h` and defined outside the source files.  Section 4.1:
"lookup_by_id(bin_id) -> index | Error::NotFound: linear scan over running
slots matching bin_id"; the slots scanned are the registered ones,
`1..g_bin_count`. -/
def binary_manager_get_index_with_binid (st : State) (bin_id : Int) : Int :=
  index_scan st.bin_table bin_id st.g_bin_count 1

/-- Modelled from the spec: `binary_manager_notify_state_changed` is declared
in `binary_manager.h` and defined outside the source files.  Section 4.3:
"delivers new_state to every subscriber of that slot, in subscription
order"; the result is the list of the deliveries, a subscriber and the state
it is sent.  The registry is not changed. -/
def binary_manager_notify_state_changed (st : State) (bin_idx : Nat) (state : Nat) :
    List (Int × Nat) :=
  (st.bin_table bin_idx).cb_list.map (fun n => (n.pid, state))

/-- The function `binary_manager_update_running_state`: the state after the
call and the notifications sent. -/
def binary_manager_update_running_state (cfg : Config) (st : State) (bin_id : Int) :
    State × List (Int × Nat) :=
  if bin_id ≤ 0 then (st, [])
  else
    let bin_idx := binary_manager_get_index_with_binid st bin_id
    if bin_idx < 0 then (st, [])
    else
      let u := st.bin_table bin_idx.toNat
      let st1 : State :=
        { st with
          bin_table := Function.update st.bin_table bin_idx.toNat
            { u with state := BINARY_RUNNING } }
      (st1, binary_manager_notify_state_changed st1 bin_idx.toNat cfg.BINARY_STARTED)

/-! ## The list of the tasks of a binary -/

/-- The task control blocks, as far as the binary manager uses them: a task
is named by a number (its address), a link is `none` when it is `NULL`.
`this_task` is the task that `this_task()` of the scheduler returns. -/
structure Tasks where
  this_task : Nat
  bin_flink : Nat → Option Nat
  bin_blink : Nat → Option Nat

/-- The function `binary_manager_add_binlist`. -/
def binary_manager_add_binlist (t : Tasks) (tcb : Nat) : Tasks :=
  let rtcb := t.this_task
  let next := t.bin_flink rtcb
  let t1 : Tasks := { t with bin_blink := Function.update t.bin_blink tcb (some rtcb) }
  let t2 : Tasks := { t1 with bin_flink := Function.update t1.bin_flink tcb next }
  let t3 : Tasks :=
    match next with
    | none => t2
    | some n => { t2 with bin_blink := Function.update t2.bin_blink n (some tcb) }
  { t3 with bin_flink := Function.update t3.bin_flink rtcb (some tcb) }

/-- The function `binary_manager_remove_binlist`. -/
def binary_manager_remove_binlist (t : Tasks) (tcb : Nat) : Tasks :=
  let prev := t.bin_blink tcb
  let next := t.bin_flink tcb
  let t1 : Tasks :=
    match prev with
    | none => t
    | some p => { t with bin_flink := Function.update t.bin_flink p next }
  match next with
  | none => t1
  | some n => { t1 with bin_blink := Function.update t1.bin_blink n prev }

/-- The tasks met by following the forward links from the link `cur`, at
most `k` of them: the walk ends at a `NULL` link and when it comes back to
`root`. -/
def forward (fl : Nat → Option Nat) (root : Nat) : Nat → Option Nat → List Nat
  | 0, _ => []
  | _ + 1, none => []
  | k + 1, some x => if x = root then [] else x :: forward fl root k (fl x)

/-- The forward traversal of the list of `root`: `root`, then its
successors, at most `k` of them. -/
def traversal (t : Tasks) (root : Nat) (k : Nat) : List Nat :=
  root :: forward t.bin_flink root k (t.bin_flink root)

/-- The chain of the task list that starts at the task `a` and goes on with
the tasks of `l`: every task is linked forward to the next one, the next one
is linked back to it, and the forward link of the last task is `NULL`. -/
def is_chain (t : Tasks) : Nat → List Nat → Bool
  | a, [] => decide (t.bin_flink a = none)
  | a, b :: l =>
    decide (t.bin_flink a = some b) && (decide (t.bin_blink b = some a) && is_chain t b l)

/-- Well-formedness of the task list of `root`: the forward chain from
`root` is `root :: l`, it is finite, no task is repeated on it, and the
consecutive tasks are linked forward and backward. -/
def well_formed (t : Tasks) (root : Nat) (l : List Nat) : Prop :=
  (root :: l).Nodup ∧ is_chain t root l = true

/-- The chain that starts at `a` and goes on with `l`, after `tcb` has been
put directly behind the task `r`: the tasks that follow `a` on the new
chain. -/
def chain_insert (r tcb : Nat) : Nat → List Nat → List Nat
  | a, [] => if a = r then [tcb] else []
  | a, b :: l => if a = r then tcb :: b :: l else b :: chain_insert r tcb b l

/-- One operation on the task list: `binary_manager_add_binlist(tcb)` called
while `rtcb` is the current task, or `binary_manager_remove_binlist(tcb)`. -/
inductive binlist_op where
  | add (rtcb tcb : Nat)
  | remove (tcb : Nat)
deriving DecidableEq, Repr

/-- A sequence of operations on the task list, in order. -/
def run_binlist : Tasks → List binlist_op → Tasks
  | t, [] => t
  | t, binlist_op.add rtcb tcb :: ops =>
    run_binlist (binary_manager_add_binlist { t with this_task := rtcb } tcb) ops
  | t, binlist_op.remove tcb :: ops => run_binlist (binary_manager_remove_binlist t tcb) ops

/-! ## Table accesses of the registrations -/

/-- The slot indices that the loop of `binary_manager_register_ubin` passes
to `binary_manager_get_udata`, in order, with `k` iterations left (see
`ubin_scan`). -/
def ubin_scan_slots (cfg : Config) (tbl : Nat → binmgr_uinfo_t) (name : List Nat) :
    Nat → Nat → List Nat
  | 0, _ => []
  | k + 1, bin_idx =>
    bin_idx ::
      (match strncmp (BIN_NAME_mem cfg (tbl bin_idx)) name (strlen name + 1) 0 with
       | none => []
       | some r => if r = 0 then [] else ubin_scan_slots cfg tbl name k (bin_idx + 1))

/-- The slot indices of `bin_table` that a call of
`binary_manager_register_ubin` accesses, in order: the slots read by the
scan, then the slot written through `BIN_ID`, `BIN_RTCOUNT`, `BIN_STATE`,
`BIN_NAME` and `BIN_CBLIST`.  The debug output of the function names the
same slots again. -/
def register_ubin_slots (cfg : Config) (st : State) : Option (List Nat) → List Nat
  | none => []
  | some name =>
    if st.g_bin_count ≥ cfg.USER_BIN_COUNT then []
    else
      ubin_scan_slots cfg st.bin_table name st.g_bin_count 1 ++
        (match ubin_scan cfg st.bin_table name st.g_bin_count 1 with
         | some false => List.replicate 5 (st.g_bin_count + 1)
         | _ => [])

/-- The indices of `part_info` that a call of `binary_manager_register_kpart`
writes: `part_count`, for `part_size` and for `part_num`. -/
def register_kpart_slots (cfg : Config) (st : State) (part_num part_size : Int) : List Nat :=
  if part_num < 0 ∨ part_size ≤ 0 ∨ st.kernel_info.part_count ≥ cfg.KERNEL_BIN_COUNT then []
  else [st.kernel_info.part_count, st.kernel_info.part_count]

/-- A call of one of the two registration functions. -/
inductive reg_call where
  | ubin (name : Option (List Nat))
  | kpart (part_num part_size : Int)
deriving DecidableEq, Repr

/-- A sequence of registration calls, in order; `none` when a call of
`binary_manager_register_ubin` is undefined. -/
def run_calls (cfg : Config) : State → List reg_call → Option State
  | st, [] => some st
  | st, reg_call.ubin name :: calls =>
    match binary_manager_register_ubin cfg st name with
    | none => none
    | some r => run_calls cfg r.2 calls
  | st, reg_call.kpart part_num part_size :: calls =>
    run_calls cfg (binary_manager_register_kpart cfg st part_num part_size) calls

/-- The string that a `char` buffer or argument holds: the bytes before the
first NUL. -/
def c_string (s : List Nat) : List Nat :=
  s.takeWhile (fun c => decide (c ≠ 0))

/-! ## Example inputs -/

/-- An example configuration: two user binaries, two kernel partitions,
names of 16 bytes. -/
def cfg0 : Config :=
  { USER_BIN_COUNT := 2, KERNEL_BIN_COUNT := 2, BIN_NAME_MAX := 16, BIN_VER_MAX := 16,
    KERNEL_VER_MAX := 8, KERNEL_VER := [50, 46, 48], LOAD_ATTR_REST := 28,
    BINARY_STARTED := 0 }

/-- The string "camera". -/
def camera : List Nat := [99, 97, 109, 101, 114, 97]

/-- The string "cam". -/
def cam : List Nat := [99, 97, 109]

/-- The state after "camera" has been registered in the initial state of the
example configuration. -/
def st_camera : State :=
  { init cfg0 with
    g_bin_count := 1,
    bin_table := Function.update (init cfg0).bin_table 1
      { zero_uinfo cfg0 with
        bin_id := -1,
        state := BINARY_INACTIVE,
        load_attr := { (zero_uinfo cfg0).load_attr with bin_name := strncpy camera 16 } } }

/-- A name of 17 characters, one more than `bin_name` holds. -/
def long_name : List Nat := List.replicate 17 97

/-- Three registrations, for a table of two. -/
def names3 : List (Option (List Nat)) := [some camera, some cam, some kernel_str]

/-- A state in which the binary in slot 1 has the id 5 and has faulted. -/
def st_fault : State :=
  { st_camera with
    bin_table := Function.update st_camera.bin_table 1
      { st_camera.bin_table 1 with bin_id := 5, state := BINARY_FAULT } }

/-- A task list: task 1 is the current task, its list is 1, 2, 3. -/
def tasks0 : Tasks :=
  { this_task := 1,
    bin_flink := fun x => if x = 1 then some 2 else if x = 2 then some 3 else none,
    bin_blink := fun x => if x = 2 then some 1 else if x = 3 then some 2 else none }

/-- The task list 1, 2, 3 after task 2 has been removed and task 4 has been
added behind task 1: the list is 1, 4, 3, and task 2 still has the links to
1 and 3. -/
def tasks1 : Tasks :=
  run_binlist tasks0 [binlist_op.remove 2, binlist_op.add 1 4]

/-- The calls that fill the table of two user binaries, with a kernel
partition between them. -/
def calls1 : List reg_call :=
  [reg_call.ubin (some camera), reg_call.kpart 3 10, reg_call.ubin (some cam)]

/-! ## Properties of the string functions -/

theorem strlen_eq_takeWhile (s : List Nat) :
    strlen s = (s.takeWhile (fun c => decide (c ≠ 0))).length := by
  induction s with
  | nil => rfl
  | cons c cs ih =>
    by_cases h : c = 0
    · simp [strlen, List.takeWhile, h]
    · simp [strlen, List.takeWhile, h, ih]

theorem strncpy_nil (n : Nat) : strncpy [] n = List.replicate n 0 := by
  induction n with
  | zero => rfl
  | succ n ih => simp [strncpy, ih, List.replicate_succ]

theorem strncpy_length (s : List Nat) (n : Nat) : (strncpy s n).length = n := by
  induction n generalizing s with
  | zero => cases s <;> rfl
  | succ n ih =>
    cases s with
    | nil => simp [strncpy_nil]
    | cons c cs =>
      by_cases h : c = 0
      · simp [strncpy, h]
      · simp [strncpy, h, ih]

/-- What `strncpy` writes: the first `n` bytes of the string, NUL-padded to
`n` bytes when the string is shorter. -/
theorem strncpy_eq (s : List Nat) (n : Nat) :
    strncpy s n =
      (s.takeWhile (fun c => decide (c ≠ 0))).take n ++ List.replicate (n - strlen s) 0 := by
  induction n generalizing s with
  | zero => cases s <;> simp [strncpy]
  | succ n ih =>
    cases s with
    | nil => simp [strncpy_nil, strlen]
    | cons c cs =>
      by_cases h : c = 0
      · simp [strncpy, h, strlen, List.takeWhile]
      · simp [strncpy, h, strlen, List.takeWhile, ih]

/-! ## Properties of the registration of user binaries -/

theorem ubin_scan_no_match (cfg : Config) (tbl : Nat → binmgr_uinfo_t) (name : List Nat)
    (k bin_idx : Nat)
    (h : ∀ j, bin_idx ≤ j → j < bin_idx + k →
      ∃ r, strncmp (BIN_NAME_mem cfg (tbl j)) name (strlen name + 1) 0 = some r ∧ r ≠ 0) :
    ubin_scan cfg tbl name k bin_idx = some false := by
  induction k generalizing bin_idx with
  | zero => rfl
  | succ k ih =>
    obtain ⟨r, hr, hr0⟩ := h bin_idx (le_refl _) (by omega)
    have hrest := ih (bin_idx + 1) (fun j h1 h2 => h j (by omega) (by omega))
    simp [ubin_scan, hr, hr0, hrest]

/-- What a call of `binary_manager_register_ubin` does when the table is not
full and the scan finds no slot that compares equal to the name. -/
theorem register_ubin_of_scan_false (cfg : Config) (st : State) (name : List Nat)
    (hlt : st.g_bin_count < cfg.USER_BIN_COUNT)
    (hscan : ubin_scan cfg st.bin_table name st.g_bin_count 1 = some false) :
    binary_manager_register_ubin cfg st (some name) =
      some (((st.g_bin_count + 1 : Nat) : Int),
        { st with
          g_bin_count := st.g_bin_count + 1,
          bin_table := Function.update st.bin_table (st.g_bin_count + 1)
            { st.bin_table (st.g_bin_count + 1) with
              bin_id := -1,
              rtcount := 0,
              state := BINARY_INACTIVE,
              load_attr :=
                { (st.bin_table (st.g_bin_count + 1)).load_attr with
                  bin_name := strncpy name cfg.BIN_NAME_MAX },
              cb_list := [] } }) := by
  simp [binary_manager_register_ubin, Nat.not_le.mpr hlt, hscan]

/-- C1: in a state with `g_bin_count = n < USER_BIN_COUNT`, registering a
non-null name that the comparison of the code matches with none of the names
stored in the slots `1..n` returns `n + 1`, sets `g_bin_count` to `n + 1` and
leaves slot `n + 1` with state `BINARY_INACTIVE`, `bin_id = -1`,
`rtcount = 0`, an empty callback list and, as stored name, the first
`BIN_NAME_MAX` bytes of the name, NUL-padded when the name is shorter; and the
first registration from the initial state returns 1. -/
theorem register_ubin_fresh (cfg : Config) (st : State) (name : List Nat) (n : Nat)
    (hn : st.g_bin_count = n) (hlt : n < cfg.USER_BIN_COUNT)
    (hno : ∀ i, 1 ≤ i → i ≤ n →
      ∃ r, strncmp (BIN_NAME_mem cfg (st.bin_table i)) name (strlen name + 1) 0 = some r
        ∧ r ≠ 0) :
    (∃ st1, binary_manager_register_ubin cfg st (some name) = some (((n + 1 : Nat) : Int), st1)
      ∧ binary_manager_get_ucount st1 = n + 1
      ∧ (binary_manager_get_udata st1 (n + 1)).state = BINARY_INACTIVE
      ∧ (binary_manager_get_udata st1 (n + 1)).bin_id = -1
      ∧ (binary_manager_get_udata st1 (n + 1)).rtcount = 0
      ∧ (binary_manager_get_udata st1 (n + 1)).cb_list = []
      ∧ (binary_manager_get_udata st1 (n + 1)).load_attr.bin_name =
          (name.takeWhile (fun c => decide (c ≠ 0))).take cfg.BIN_NAME_MAX
            ++ List.replicate (cfg.BIN_NAME_MAX - strlen name) 0)
    ∧ ∀ first : List Nat,
        (binary_manager_register_ubin cfg (init cfg) (some first)).map Prod.fst = some 1 := by
  subst hn
  constructor
  · have hscan : ubin_scan cfg st.bin_table name st.g_bin_count 1 = some false :=
      ubin_scan_no_match cfg st.bin_table name st.g_bin_count 1
        (fun j h1 h2 => hno j h1 (by omega))
    refine ⟨_, register_ubin_of_scan_false cfg st name hlt hscan, ?_⟩
    simp [binary_manager_get_ucount, binary_manager_get_udata, strncpy_eq]
  · intro first
    have h0 : (init cfg).g_bin_count < cfg.USER_BIN_COUNT := by
      show 0 < cfg.USER_BIN_COUNT
      omega
    rw [register_ubin_of_scan_false cfg (init cfg) first h0 rfl]
    rfl

/-- C1, at an instance: with "camera" in slot 1, "cam" is registered in
slot 2. -/
theorem register_ubin_fresh_witness :
    (∃ st1, binary_manager_register_ubin cfg0 st_camera (some cam) = some (((1 + 1 : Nat) : Int), st1)
      ∧ binary_manager_get_ucount st1 = 1 + 1
      ∧ (binary_manager_get_udata st1 (1 + 1)).state = BINARY_INACTIVE
      ∧ (binary_manager_get_udata st1 (1 + 1)).bin_id = -1
      ∧ (binary_manager_get_udata st1 (1 + 1)).rtcount = 0
      ∧ (binary_manager_get_udata st1 (1 + 1)).cb_list = []
      ∧ (binary_manager_get_udata st1 (1 + 1)).load_attr.bin_name =
          (cam.takeWhile (fun c => decide (c ≠ 0))).take cfg0.BIN_NAME_MAX
            ++ List.replicate (cfg0.BIN_NAME_MAX - strlen cam) 0)
    ∧ ∀ first : List Nat,
        (binary_manager_register_ubin cfg0 (init cfg0) (some first)).map Prod.fst = some 1 :=
  register_ubin_fresh cfg0 st_camera cam 1 rfl (by decide)
    (fun i h1 h2 => by
      have hi : i = 1 := Nat.le_antisymm h2 h1
      subst hi
      exact ⟨_, rfl, by decide⟩)

/-- The outcomes of a call of `binary_manager_register_ubin` that returns:
`ERROR` with the state unchanged, or the registration in the next slot. -/
theorem register_ubin_cases (cfg : Config) (st : State) (name : Option (List Nat))
    (r : Int × State) (h : binary_manager_register_ubin cfg st name = some r) :
    r = (ERROR, st) ∨
    ∃ nm, name = some nm ∧ st.g_bin_count < cfg.USER_BIN_COUNT
      ∧ ubin_scan cfg st.bin_table nm st.g_bin_count 1 = some false
      ∧ r = (((st.g_bin_count + 1 : Nat) : Int),
          { st with
            g_bin_count := st.g_bin_count + 1,
            bin_table := Function.update st.bin_table (st.g_bin_count + 1)
              { st.bin_table (st.g_bin_count + 1) with
                bin_id := -1,
                rtcount := 0,
                state := BINARY_INACTIVE,
                load_attr :=
                  { (st.bin_table (st.g_bin_count + 1)).load_attr with
                    bin_name := strncpy nm cfg.BIN_NAME_MAX },
                cb_list := [] } }) := by
  cases name with
  | none =>
    left
    simpa [binary_manager_register_ubin] using h.symm
  | some nm =>
    by_cases hfull : st.g_bin_count ≥ cfg.USER_BIN_COUNT
    · left
      simpa [binary_manager_register_ubin, hfull] using h.symm
    · have hlt : st.g_bin_count < cfg.USER_BIN_COUNT := Nat.not_le.mp hfull
      cases hscan : ubin_scan cfg st.bin_table nm st.g_bin_count 1 with
      | none => simp [binary_manager_register_ubin, hfull, hscan] at h
      | some b =>
        cases b with
        | true =>
          left
          simpa [binary_manager_register_ubin, hfull, hscan] using h.symm
        | false =>
          right
          refine ⟨nm, rfl, hlt, hscan, ?_⟩
          rw [register_ubin_of_scan_false cfg st nm hlt hscan] at h
          exact (Option.some.inj h).symm

theorem register_ubin_full (cfg : Config) (st : State) (nm : List Nat)
    (hfull : st.g_bin_count ≥ cfg.USER_BIN_COUNT) :
    binary_manager_register_ubin cfg st (some nm) = some (ERROR, st) := by
  simp [binary_manager_register_ubin, hfull]

theorem register_ubin_collision (cfg : Config) (st : State) (nm : List Nat)
    (hscan : ubin_scan cfg st.bin_table nm st.g_bin_count 1 = some true) :
    binary_manager_register_ubin cfg st (some nm) = some (ERROR, st) := by
  by_cases hfull : st.g_bin_count ≥ cfg.USER_BIN_COUNT
  · simp [binary_manager_register_ubin, hfull]
  · simp [binary_manager_register_ubin, hfull, hscan]

/-- C5: every call of `binary_manager_register_ubin` that returns `ERROR`
leaves `g_bin_count`, every slot of `bin_table` and the rest of the state
unchanged; and the null name, the full table and the name collision each
return `ERROR`. -/
theorem register_ubin_error_unchanged (cfg : Config) (st : State) :
    (∀ (name : Option (List Nat)) (r : Int) (st1 : State),
      binary_manager_register_ubin cfg st name = some (r, st1) → r = ERROR → st1 = st)
    ∧ binary_manager_register_ubin cfg st none = some (ERROR, st)
    ∧ (∀ nm, st.g_bin_count ≥ cfg.USER_BIN_COUNT →
        binary_manager_register_ubin cfg st (some nm) = some (ERROR, st))
    ∧ (∀ nm, ubin_scan cfg st.bin_table nm st.g_bin_count 1 = some true →
        binary_manager_register_ubin cfg st (some nm) = some (ERROR, st)) := by
  refine ⟨?_, rfl, ?_, ?_⟩
  · intro name r st1 h hr
    rcases register_ubin_cases cfg st name (r, st1) h with h1 | ⟨nm, _, _, _, h1⟩
    · exact (Prod.mk.inj h1).2
    · have h2 : r = ((st.g_bin_count + 1 : Nat) : Int) := (Prod.mk.inj h1).1
      rw [hr] at h2
      simp only [ERROR] at h2
      omega
  · exact fun nm hfull => register_ubin_full cfg st nm hfull
  · exact fun nm hscan => register_ubin_collision cfg st nm hscan

/-- C5, at an instance: registering "camera" a second time returns `ERROR`
and leaves the state as it was. -/
theorem register_ubin_error_unchanged_witness :
    binary_manager_register_ubin cfg0 st_camera (some camera) = some (ERROR, st_camera)
    ∧ binary_manager_register_ubin cfg0 st_camera none = some (ERROR, st_camera) :=
  ⟨(register_ubin_error_unchanged cfg0 st_camera).2.2.2 camera rfl,
   (register_ubin_error_unchanged cfg0 st_camera).2.1⟩

theorem register_ubin_count_le (cfg : Config) (st : State) (name : Option (List Nat))
    (r : Int × State) (h : binary_manager_register_ubin cfg st name = some r)
    (hle : st.g_bin_count ≤ cfg.USER_BIN_COUNT) : r.2.g_bin_count ≤ cfg.USER_BIN_COUNT := by
  rcases register_ubin_cases cfg st name r h with h1 | ⟨nm, _, hlt, _, h1⟩
  · rw [h1]
    exact hle
  · rw [h1]
    exact hlt

theorem run_ubin_count_le (cfg : Config) (names : List (Option (List Nat))) (st st1 : State)
    (h : run_ubin cfg st names = some st1)
    (hle : st.g_bin_count ≤ cfg.USER_BIN_COUNT) : st1.g_bin_count ≤ cfg.USER_BIN_COUNT := by
  induction names generalizing st with
  | nil =>
    simp only [run_ubin, Option.some.injEq] at h
    rw [← h]
    exact hle
  | cons name names ih =>
    cases hr : binary_manager_register_ubin cfg st name with
    | none => simp [run_ubin, hr] at h
    | some r =>
      simp only [run_ubin, hr] at h
      exact ih r.2 h (register_ubin_count_le cfg st name r hr hle)

/-- C3: in every state reached from the initial state by a sequence of
`binary_manager_register_ubin` calls, `binary_manager_get_ucount()` is at
most `USER_BIN_COUNT`; and when `g_bin_count = USER_BIN_COUNT`, the call
returns `ERROR` for every name, the state unchanged. -/
theorem ubin_count_bounded (cfg : Config) (names : List (Option (List Nat))) (st : State)
    (h : run_ubin cfg (init cfg) names = some st) :
    binary_manager_get_ucount st ≤ cfg.USER_BIN_COUNT
    ∧ (st.g_bin_count = cfg.USER_BIN_COUNT →
        ∀ name, binary_manager_register_ubin cfg st name = some (ERROR, st)) := by
  refine ⟨run_ubin_count_le cfg names (init cfg) st h (Nat.zero_le _), ?_⟩
  intro hfull name
  cases name with
  | none => rfl
  | some nm => exact register_ubin_full cfg st nm (by omega)

/-- C3, at an instance: after "camera", "cam" and "kernel" the table of the
example configuration holds two binaries, and "kernel" is refused. -/
theorem ubin_count_bounded_witness :
    binary_manager_get_ucount ((run_ubin cfg0 (init cfg0) names3).getD (init cfg0)) = 2
    ∧ binary_manager_get_ucount ((run_ubin cfg0 (init cfg0) names3).getD (init cfg0))
        ≤ cfg0.USER_BIN_COUNT
    ∧ binary_manager_register_ubin cfg0
        ((run_ubin cfg0 (init cfg0) names3).getD (init cfg0)) (some kernel_str)
        = some (ERROR, (run_ubin cfg0 (init cfg0) names3).getD (init cfg0)) :=
  ⟨rfl,
   (ubin_count_bounded cfg0 names3 ((run_ubin cfg0 (init cfg0) names3).getD (init cfg0)) rfl).1,
   (ubin_count_bounded cfg0 names3 ((run_ubin cfg0 (init cfg0) names3).getD (init cfg0)) rfl).2
     rfl (some kernel_str)⟩

/-- C2, at the failing input: in the initial state of the example
configuration a name of 17 characters is registered in slot 1, and the
second registration of the same name does not return `ERROR`: it returns 2
and `g_bin_count` becomes 2. -/
theorem register_ubin_long_name_twice :
    (binary_manager_register_ubin cfg0 (init cfg0) (some long_name)).map Prod.fst = some 1
    ∧ ((binary_manager_register_ubin cfg0 (init cfg0) (some long_name)).bind
        (fun r => binary_manager_register_ubin cfg0 r.2 (some long_name))).map
          (fun r => (r.1, r.2.g_bin_count)) = some (2, 2) := by
  constructor <;> rfl

/-- C4, at the failing input: after two registrations of the same name of 17
characters, slots 1 and 2 of the example configuration store the same
name. -/
theorem run_ubin_long_name_duplicate :
    (run_ubin cfg0 (init cfg0) [some long_name, some long_name]).map
      (fun st => (st.g_bin_count, (st.bin_table 1).load_attr.bin_name,
        (st.bin_table 2).load_attr.bin_name))
      = some (2, List.replicate 16 97, List.replicate 16 97) := by
  rfl

/-! ### Names shorter than `BIN_NAME_MAX`

For a name shorter than `BIN_NAME_MAX` the stored copy holds the terminating
NUL, and the comparison of the scan stays inside `bin_name`. -/

theorem getD_strlen (s : List Nat) : s.getD (strlen s) 0 = 0 := by
  induction s with
  | nil => rfl
  | cons c cs ih =>
    by_cases h : c = 0
    · simp only [strlen, if_pos h]
      exact h
    · simp only [strlen, if_neg h]
      exact ih

theorem getD_replicate_zero (n j : Nat) : (List.replicate n 0).getD j 0 = 0 := by
  induction n generalizing j with
  | zero => rfl
  | succ n ih =>
    cases j with
    | zero => rfl
    | succ j => exact ih j

theorem getD_strncpy (s : List Nat) (m j : Nat) (hj : j < m) :
    (strncpy s m).getD j 0 = if j < strlen s then s.getD j 0 else 0 := by
  induction m generalizing s j with
  | zero => omega
  | succ m ih =>
    cases s with
    | nil =>
      rw [strncpy_nil, getD_replicate_zero]
      simp only [strlen, Nat.not_lt_zero, if_false]
    | cons c cs =>
      by_cases h : c = 0
      · simp only [strncpy, if_pos h, strlen, Nat.not_lt_zero, if_false]
        exact getD_replicate_zero (m + 1) j
      · simp only [strncpy, if_neg h, strlen]
        cases j with
        | zero =>
          rw [if_pos (Nat.succ_pos _)]
          rfl
        | succ j =>
          have hi := ih cs j (by omega)
          by_cases hlt : j < strlen cs
          · rw [if_pos (by omega : j + 1 < strlen cs + 1)]
            rw [if_pos hlt] at hi
            exact hi
          · rw [if_neg (by omega : ¬ j + 1 < strlen cs + 1)]
            rw [if_neg hlt] at hi
            exact hi

theorem strncmp_same (s1 : Nat → Option Nat) (s2 : List Nat) (n i : Nat)
    (hmem : ∀ j, i ≤ j → j < i + n → s1 j = some (s2.getD j 0))
    (hend : n = 0 ∨ s2.getD (i + n - 1) 0 = 0) :
    strncmp s1 s2 n i = some 0 := by
  induction n generalizing i with
  | zero => rfl
  | succ n ih =>
    have h0 := hmem i (le_refl _) (by omega)
    simp only [strncmp, h0, ne_eq, not_true_eq_false, if_false]
    by_cases hc : s2.getD i 0 = 0
    · rw [if_pos hc]
    · rw [if_neg hc]
      apply ih (i + 1) (fun j h1 h2 => hmem j (by omega) (by omega))
      rcases hend with h | h
      · omega
      · cases n with
        | zero =>
          simp only [Nat.add_sub_cancel] at h
          exact absurd h hc
        | succ n =>
          right
          have he : i + 1 + (n + 1) - 1 = i + (n + 1 + 1) - 1 := by omega
          rw [he]
          exact h

/-- A slot that stores the copy of a name shorter than `BIN_NAME_MAX`
compares equal to that name. -/
theorem strncmp_stored_name (cfg : Config) (u : binmgr_uinfo_t) (name : List Nat)
    (hshort : strlen name < cfg.BIN_NAME_MAX)
    (hstored : u.load_attr.bin_name = strncpy name cfg.BIN_NAME_MAX) :
    strncmp (BIN_NAME_mem cfg u) name (strlen name + 1) 0 = some 0 := by
  apply strncmp_same
  · intro j _ hj
    have hjm : j < cfg.BIN_NAME_MAX := by omega
    simp only [BIN_NAME_mem, if_pos hjm, hstored, getD_strncpy name _ j hjm]
    by_cases hlt : j < strlen name
    · rw [if_pos hlt]
    · have hje : j = strlen name := by omega
      rw [if_neg hlt, hje, getD_strlen]
  · right
    show name.getD (0 + (strlen name + 1) - 1) 0 = 0
    have he : 0 + (strlen name + 1) - 1 = strlen name := by omega
    rw [he, getD_strlen]

theorem ubin_scan_false_iff (cfg : Config) (tbl : Nat → binmgr_uinfo_t) (name : List Nat)
    (k bin_idx : Nat) :
    ubin_scan cfg tbl name k bin_idx = some false ↔
      ∀ j, bin_idx ≤ j → j < bin_idx + k →
        ∃ r, strncmp (BIN_NAME_mem cfg (tbl j)) name (strlen name + 1) 0 = some r ∧ r ≠ 0 := by
  refine ⟨?_, ubin_scan_no_match cfg tbl name k bin_idx⟩
  induction k generalizing bin_idx with
  | zero =>
    intro _ j h1 h2
    omega
  | succ k ih =>
    intro h j h1 h2
    cases hr : strncmp (BIN_NAME_mem cfg (tbl bin_idx)) name (strlen name + 1) 0 with
    | none => simp [ubin_scan, hr] at h
    | some r =>
      by_cases hr0 : r = 0
      · simp [ubin_scan, hr, hr0] at h
      · simp only [ubin_scan, hr, if_neg hr0] at h
        by_cases hj : j = bin_idx
        · rw [hj]
          exact ⟨r, hr, hr0⟩
        · exact ih (bin_idx + 1) h j (by omega) (by omega)

theorem ubin_scan_match_last (cfg : Config) (tbl : Nat → binmgr_uinfo_t) (name : List Nat)
    (k bin_idx : Nat)
    (hno : ∀ j, bin_idx ≤ j → j < bin_idx + k →
      ∃ r, strncmp (BIN_NAME_mem cfg (tbl j)) name (strlen name + 1) 0 = some r ∧ r ≠ 0)
    (hlast : strncmp (BIN_NAME_mem cfg (tbl (bin_idx + k))) name (strlen name + 1) 0 = some 0) :
    ubin_scan cfg tbl name (k + 1) bin_idx = some true := by
  induction k generalizing bin_idx with
  | zero =>
    rw [Nat.add_zero] at hlast
    simp [ubin_scan, hlast]
  | succ k ih =>
    obtain ⟨r, hr, hr0⟩ := hno bin_idx (le_refl _) (by omega)
    have hrest := ih (bin_idx + 1) (fun j h1 h2 => hno j (by omega) (by omega))
      (by
        have he : bin_idx + 1 + k = bin_idx + (k + 1) := by omega
        rw [he]
        exact hlast)
    rw [ubin_scan]
    simp only [hr, if_neg hr0]
    exact hrest

/-- The duplicate check works for short names: when the registration of a
name shorter than `BIN_NAME_MAX` succeeds, the registration of the same name in
the state it leaves returns `ERROR` and changes nothing. -/
theorem register_ubin_twice_short (cfg : Config) (st st1 : State) (name : List Nat) (r : Int)
    (hshort : strlen name < cfg.BIN_NAME_MAX)
    (h : binary_manager_register_ubin cfg st (some name) = some (r, st1))
    (hr : r ≠ ERROR) :
    binary_manager_register_ubin cfg st1 (some name) = some (ERROR, st1) := by
  rcases register_ubin_cases cfg st (some name) (r, st1) h with h1 | ⟨nm, hnm, _, hscan, h1⟩
  · exact absurd (Prod.mk.inj h1).1 hr
  · have hnm : name = nm := Option.some.inj hnm
    subst hnm
    have hst1 := (Prod.mk.inj h1).2
    by_cases hfull : st1.g_bin_count ≥ cfg.USER_BIN_COUNT
    · exact register_ubin_full cfg st1 name hfull
    · apply register_ubin_collision cfg st1 name
      have hg : st1.g_bin_count = st.g_bin_count + 1 := by rw [hst1]
      rw [hg]
      apply ubin_scan_match_last
      · intro j h1 h2
        have hj : j ≠ st.g_bin_count + 1 := by omega
        have hu : st1.bin_table j = st.bin_table j := by
          rw [hst1]
          simp [Function.update, hj]
        rw [hu]
        exact (ubin_scan_false_iff cfg st.bin_table name st.g_bin_count 1).mp hscan j h1 h2
      · apply strncmp_stored_name cfg _ name hshort
        rw [hst1, Nat.add_comm 1]
        simp

theorem register_ubin_names_distinct (cfg : Config) (st : State) (name : Option (List Nat))
    (r : Int × State)
    (hshort : ∀ nm, name = some nm → strlen nm < cfg.BIN_NAME_MAX)
    (h : binary_manager_register_ubin cfg st name = some r)
    (hd : names_distinct st) : names_distinct r.2 := by
  rcases register_ubin_cases cfg st name r h with h1 | ⟨nm, hnm, _, hscan, h1⟩
  · rw [h1]
    exact hd
  · rw [h1]
    intro i j hi hij hj
    simp only at hj
    have hii : i ≠ st.g_bin_count + 1 := by omega
    by_cases hjj : j = st.g_bin_count + 1
    · subst hjj
      dsimp only
      rw [Function.update_same, Function.update_noteq hii]
      intro heq
      obtain ⟨x, hx, hx0⟩ :=
        (ubin_scan_false_iff cfg st.bin_table nm st.g_bin_count 1).mp hscan i hi (by omega)
      rw [strncmp_stored_name cfg (st.bin_table i) nm (hshort nm hnm) heq] at hx
      exact hx0 (Option.some.inj hx).symm
    · dsimp only
      rw [Function.update_noteq hii, Function.update_noteq hjj]
      exact hd i j hi hij (by omega)

/-- Registrations of names shorter than `BIN_NAME_MAX` keep the names stored
in the slots `1..g_bin_count` pairwise distinct. -/
theorem run_ubin_names_distinct (cfg : Config) (names : List (Option (List Nat)))
    (st st1 : State)
    (hshort : ∀ nm, some nm ∈ names → strlen nm < cfg.BIN_NAME_MAX)
    (h : run_ubin cfg st names = some st1)
    (hd : names_distinct st) : names_distinct st1 := by
  induction names generalizing st with
  | nil =>
    simp only [run_ubin, Option.some.injEq] at h
    rw [← h]
    exact hd
  | cons name names ih =>
    cases hr : binary_manager_register_ubin cfg st name with
    | none => simp [run_ubin, hr] at h
    | some r =>
      simp only [run_ubin, hr] at h
      apply ih r.2 (fun nm hm => hshort nm (List.mem_cons_of_mem _ hm)) h
      apply register_ubin_names_distinct cfg st name r _ hr hd
      intro nm hnm
      apply hshort nm
      rw [hnm]
      exact List.mem_cons_self _ _

/-! ### The calls made from the initial state are defined

The byte that follows `bin_name` in a table entry is zero at start-up and is
not written by the registration, so the comparison of the scan ends at that
byte at the latest. -/

theorem strncmp_defined (s1 : Nat → Option Nat) (s2 : List Nat) (m : Nat)
    (hin : ∀ j, j < m → ∃ c, s1 j = some c) (hend : s1 m = some 0) (n i : Nat)
    (hi : i ≤ m) : ∃ r, strncmp s1 s2 n i = some r := by
  induction n generalizing i with
  | zero => exact ⟨0, rfl⟩
  | succ n ih =>
    by_cases him : i < m
    · obtain ⟨c, hc⟩ := hin i him
      simp only [strncmp, hc]
      by_cases h1 : c ≠ s2.getD i 0
      · rw [if_pos h1]
        exact ⟨_, rfl⟩
      · rw [if_neg h1]
        by_cases h2 : c = 0
        · rw [if_pos h2]
          exact ⟨_, rfl⟩
        · rw [if_neg h2]
          exact ih (i + 1) (by omega)
    · have hie : i = m := by omega
      subst hie
      simp only [strncmp, hend]
      by_cases h1 : (0 : Nat) ≠ s2.getD i 0
      · rw [if_pos h1]
        exact ⟨_, rfl⟩
      · rw [if_neg h1]
        exact ⟨_, rfl⟩

theorem ubin_scan_defined (cfg : Config) (tbl : Nat → binmgr_uinfo_t) (name : List Nat)
    (hz : ∀ j, BIN_NAME_mem cfg (tbl j) cfg.BIN_NAME_MAX = some 0) (k bin_idx : Nat) :
    ∃ b, ubin_scan cfg tbl name k bin_idx = some b := by
  induction k generalizing bin_idx with
  | zero => exact ⟨false, rfl⟩
  | succ k ih =>
    obtain ⟨r, hr⟩ := strncmp_defined (BIN_NAME_mem cfg (tbl bin_idx)) name cfg.BIN_NAME_MAX
      (fun j hj => ⟨(tbl bin_idx).load_attr.bin_name.getD j 0,
        by simp only [BIN_NAME_mem, if_pos hj]⟩) (hz bin_idx)
      (strlen name + 1) 0 (Nat.zero_le _)
    simp only [ubin_scan, hr]
    by_cases h0 : r = 0
    · rw [if_pos h0]
      exact ⟨_, rfl⟩
    · rw [if_neg h0]
      exact ih (bin_idx + 1)

theorem register_ubin_defined (cfg : Config) (st : State) (name : Option (List Nat))
    (hz : ∀ j, BIN_NAME_mem cfg (st.bin_table j) cfg.BIN_NAME_MAX = some 0) :
    ∃ r, binary_manager_register_ubin cfg st name = some r
      ∧ ∀ j, BIN_NAME_mem cfg (r.2.bin_table j) cfg.BIN_NAME_MAX = some 0 := by
  cases name with
  | none => exact ⟨(ERROR, st), rfl, hz⟩
  | some nm =>
    by_cases hfull : st.g_bin_count ≥ cfg.USER_BIN_COUNT
    · exact ⟨(ERROR, st), register_ubin_full cfg st nm hfull, hz⟩
    · obtain ⟨b, hb⟩ := ubin_scan_defined cfg st.bin_table nm hz st.g_bin_count 1
      cases b with
      | true => exact ⟨(ERROR, st), register_ubin_collision cfg st nm hb, hz⟩
      | false =>
        refine ⟨_, register_ubin_of_scan_false cfg st nm (Nat.not_le.mp hfull) hb, ?_⟩
        intro j
        dsimp only
        by_cases hj : j = st.g_bin_count + 1
        · subst hj
          rw [Function.update_same]
          have h := hz (st.g_bin_count + 1)
          simp only [BIN_NAME_mem, Nat.lt_irrefl, if_false] at h ⊢
          exact h
        · rw [Function.update_noteq hj]
          exact hz j

/-- Every sequence of registrations from the initial state is defined, when
the table entry has at least one byte after `bin_name`. -/
theorem run_ubin_defined (cfg : Config)
    (hrest : 0 < cfg.LOAD_ATTR_REST) (names : List (Option (List Nat))) :
    ∃ st, run_ubin cfg (init cfg) names = some st := by
  have hgen : ∀ (names : List (Option (List Nat))) (st : State),
      (∀ j, BIN_NAME_mem cfg (st.bin_table j) cfg.BIN_NAME_MAX = some 0) →
      ∃ st1, run_ubin cfg st names = some st1 := by
    intro names
    induction names with
    | nil => exact fun st _ => ⟨st, rfl⟩
    | cons name names ih =>
      intro st hz
      obtain ⟨r, hr, hz1⟩ := register_ubin_defined cfg st name hz
      obtain ⟨st1, h1⟩ := ih r.2 hz1
      exact ⟨st1, by simp only [run_ubin, hr, h1]⟩
  apply hgen names (init cfg)
  intro j
  obtain ⟨n, hn⟩ : ∃ n, cfg.LOAD_ATTR_REST = n + 1 := ⟨cfg.LOAD_ATTR_REST - 1, by omega⟩
  simp [BIN_NAME_mem, init, zero_uinfo, hn, List.replicate_succ]

/-! ## Properties of the registration of kernel partitions -/

theorem register_kpart_rejected (cfg : Config) (st : State) (part_num part_size : Int)
    (h : ¬ (0 ≤ part_num ∧ 0 < part_size
      ∧ st.kernel_info.part_count < cfg.KERNEL_BIN_COUNT)) :
    binary_manager_register_kpart cfg st part_num part_size = st := by
  have hc : part_num < 0 ∨ part_size ≤ 0
      ∨ st.kernel_info.part_count ≥ cfg.KERNEL_BIN_COUNT := by
    by_contra hn
    apply h
    simp only [not_or, not_lt, not_le, ge_iff_le] at hn
    exact hn
  simp only [binary_manager_register_kpart, if_pos hc]

theorem register_kpart_accepted (cfg : Config) (st : State) (part_num part_size : Int)
    (h : 0 ≤ part_num ∧ 0 < part_size
      ∧ st.kernel_info.part_count < cfg.KERNEL_BIN_COUNT) :
    (binary_manager_register_kpart cfg st part_num part_size).kernel_info.part_count
        = st.kernel_info.part_count + 1
    ∧ (binary_manager_register_kpart cfg st part_num part_size).kernel_info.part_info
        = Function.update st.kernel_info.part_info st.kernel_info.part_count
            { part_size := part_size, part_num := part_num } := by
  have hc : ¬ (part_num < 0 ∨ part_size ≤ 0
      ∨ st.kernel_info.part_count ≥ cfg.KERNEL_BIN_COUNT) := by
    intro hn
    rcases hn with h1 | h1 | h1 <;> omega
  simp only [binary_manager_register_kpart, if_neg hc]
  by_cases h0 : st.kernel_info.part_count = 0 <;> simp [h0]

/-- C6: `binary_manager_register_kpart(part_num, part_size)` changes the
kernel data if and only if `part_num >= 0`, `part_size > 0` and
`part_count < KERNEL_BIN_COUNT`; it then stores the pair at index
`part_count`, increases `part_count` by one and leaves the earlier entries
unchanged; otherwise the kernel data (and the whole state) is unchanged. -/
theorem register_kpart_effect (cfg : Config) (st : State) (part_num part_size : Int) :
    (binary_manager_get_kdata (binary_manager_register_kpart cfg st part_num part_size)
        ≠ binary_manager_get_kdata st
      ↔ (0 ≤ part_num ∧ 0 < part_size
          ∧ st.kernel_info.part_count < cfg.KERNEL_BIN_COUNT))
    ∧ ((0 ≤ part_num ∧ 0 < part_size
          ∧ st.kernel_info.part_count < cfg.KERNEL_BIN_COUNT) →
        (binary_manager_register_kpart cfg st part_num part_size).kernel_info.part_info
            st.kernel_info.part_count = { part_size := part_size, part_num := part_num }
        ∧ (binary_manager_register_kpart cfg st part_num part_size).kernel_info.part_count
            = st.kernel_info.part_count + 1
        ∧ ∀ i, i < st.kernel_info.part_count →
            (binary_manager_register_kpart cfg st part_num part_size).kernel_info.part_info i
              = st.kernel_info.part_info i)
    ∧ (¬ (0 ≤ part_num ∧ 0 < part_size
          ∧ st.kernel_info.part_count < cfg.KERNEL_BIN_COUNT) →
        binary_manager_register_kpart cfg st part_num part_size = st) := by
  refine ⟨⟨?_, ?_⟩, ?_, register_kpart_rejected cfg st part_num part_size⟩
  · intro hne
    by_contra hc
    exact hne (by rw [register_kpart_rejected cfg st part_num part_size hc])
  · intro hc heq
    have h1 := (register_kpart_accepted cfg st part_num part_size hc).1
    have h2 : (binary_manager_register_kpart cfg st part_num part_size).kernel_info.part_count
        = st.kernel_info.part_count := by
      simp only [binary_manager_get_kdata] at heq
      rw [heq]
    omega
  · intro hc
    obtain ⟨h1, h2⟩ := register_kpart_accepted cfg st part_num part_size hc
    refine ⟨?_, h1, ?_⟩
    · rw [h2]
      simp
    · intro i hi
      rw [h2]
      simp [Function.update, Nat.ne_of_lt hi]

/-- C6, at an instance: partition 3 of size 10 is stored at index 0 of the
initial state, and a partition of size 0 changes nothing. -/
theorem register_kpart_effect_witness :
    ((binary_manager_register_kpart cfg0 (init cfg0) 3 10).kernel_info.part_info 0
        = { part_size := 10, part_num := 3 }
      ∧ (binary_manager_register_kpart cfg0 (init cfg0) 3 10).kernel_info.part_count = 0 + 1)
    ∧ binary_manager_register_kpart cfg0 (init cfg0) 4 0 = init cfg0 :=
  ⟨⟨((register_kpart_effect cfg0 (init cfg0) 3 10).2.1 (by decide)).1,
    ((register_kpart_effect cfg0 (init cfg0) 3 10).2.1 (by decide)).2.1⟩,
   (register_kpart_effect cfg0 (init cfg0) 4 0).2.2 (by decide)⟩

theorem kpart_args_ok_iff (c : Int × Int) : kpart_args_ok c = true ↔ 0 ≤ c.1 ∧ 0 < c.2 := by
  simp [kpart_args_ok]

theorem kpart_list_length (k : binmgr_kinfo_t) : (kpart_list k).length = k.part_count := by
  simp [kpart_list]

theorem kpart_list_register_accepted (cfg : Config) (st : State) (part_num part_size : Int)
    (h : 0 ≤ part_num ∧ 0 < part_size
      ∧ st.kernel_info.part_count < cfg.KERNEL_BIN_COUNT) :
    kpart_list (binary_manager_register_kpart cfg st part_num part_size).kernel_info
      = kpart_list st.kernel_info ++ [{ part_size := part_size, part_num := part_num }] := by
  obtain ⟨h1, h2⟩ := register_kpart_accepted cfg st part_num part_size h
  simp only [kpart_list, h1, h2, List.range_succ, List.map_append, List.map_cons,
    List.map_nil, Function.update_same]
  congr 1
  apply List.map_congr_left
  intro i hi
  have hlt : i < st.kernel_info.part_count := List.mem_range.mp hi
  simp [Function.update, Nat.ne_of_lt hlt]

theorem run_kpart_list (cfg : Config) (calls : List (Int × Int)) (st : State)
    (hle : st.kernel_info.part_count ≤ cfg.KERNEL_BIN_COUNT) :
    kpart_list (run_kpart cfg st calls).kernel_info
      = kpart_list st.kernel_info
        ++ (((calls.filter kpart_args_ok).take
              (cfg.KERNEL_BIN_COUNT - st.kernel_info.part_count)).map
            (fun c => ({ part_size := c.2, part_num := c.1 } : part_info_t))) := by
  induction calls generalizing st with
  | nil => simp [run_kpart]
  | cons c cs ih =>
    simp only [run_kpart]
    by_cases hok : kpart_args_ok c = true
    · by_cases hlt : st.kernel_info.part_count < cfg.KERNEL_BIN_COUNT
      · have hc : 0 ≤ c.1 ∧ 0 < c.2 ∧ st.kernel_info.part_count < cfg.KERNEL_BIN_COUNT :=
          ⟨((kpart_args_ok_iff c).mp hok).1, ((kpart_args_ok_iff c).mp hok).2, hlt⟩
        have hcnt := (register_kpart_accepted cfg st c.1 c.2 hc).1
        rw [ih _ (by omega), kpart_list_register_accepted cfg st c.1 c.2 hc, hcnt,
          List.filter_cons_of_pos hok]
        have hk : cfg.KERNEL_BIN_COUNT - st.kernel_info.part_count
            = (cfg.KERNEL_BIN_COUNT - (st.kernel_info.part_count + 1)) + 1 := by omega
        rw [hk, List.take_succ_cons]
        simp
      · have hrej := register_kpart_rejected cfg st c.1 c.2 (fun hc => hlt hc.2.2)
        rw [hrej, ih st hle]
        have hk : cfg.KERNEL_BIN_COUNT - st.kernel_info.part_count = 0 := by omega
        simp [hk]
    · have hrej := register_kpart_rejected cfg st c.1 c.2
        (fun hc => hok ((kpart_args_ok_iff c).mpr ⟨hc.1, hc.2.1⟩))
      rw [hrej, ih st hle, List.filter_cons_of_neg hok]

/-- C7: for every sequence of `binary_manager_register_kpart` calls from the
initial state, `binary_manager_get_kcount()` is at most `KERNEL_BIN_COUNT`,
and the stored list `part_info[0..part_count)` is, in call order, the first
`KERNEL_BIN_COUNT` argument pairs of the sequence with `part_num >= 0` and
`part_size > 0`. -/
theorem kpart_list_of_calls (cfg : Config) (calls : List (Int × Int)) :
    binary_manager_get_kcount (run_kpart cfg (init cfg) calls) ≤ cfg.KERNEL_BIN_COUNT
    ∧ kpart_list (run_kpart cfg (init cfg) calls).kernel_info
        = ((calls.filter (fun c => decide (0 ≤ c.1 ∧ 0 < c.2))).take cfg.KERNEL_BIN_COUNT).map
            (fun c => ({ part_size := c.2, part_num := c.1 } : part_info_t)) := by
  have hf : (fun c : Int × Int => decide (0 ≤ c.1 ∧ 0 < c.2)) = kpart_args_ok := by
    funext c
    simp [kpart_args_ok]
  have h := run_kpart_list cfg calls (init cfg) (Nat.zero_le _)
  have h0 : kpart_list (init cfg).kernel_info = [] := rfl
  have hc0 : (init cfg).kernel_info.part_count = 0 := rfl
  rw [h0, hc0, List.nil_append, Nat.sub_zero] at h
  rw [hf]
  refine ⟨?_, h⟩
  have hl := kpart_list_length (run_kpart cfg (init cfg) calls).kernel_info
  rw [h] at hl
  simp only [binary_manager_get_kcount, ← hl, List.length_map, List.length_take]
  exact Nat.min_le_left _ _

theorem register_kpart_name_version (cfg : Config) (st : State) (part_num part_size : Int) :
    (0 ≤ part_num ∧ 0 < part_size ∧ st.kernel_info.part_count = 0
        ∧ 0 < cfg.KERNEL_BIN_COUNT →
      (binary_manager_register_kpart cfg st part_num part_size).kernel_info.name
          = strncpy kernel_str cfg.BIN_NAME_MAX
      ∧ (binary_manager_register_kpart cfg st part_num part_size).kernel_info.version
          = strncpy cfg.KERNEL_VER cfg.KERNEL_VER_MAX)
    ∧ (¬ (0 ≤ part_num ∧ 0 < part_size ∧ st.kernel_info.part_count = 0
        ∧ 0 < cfg.KERNEL_BIN_COUNT) →
      (binary_manager_register_kpart cfg st part_num part_size).kernel_info.name
          = st.kernel_info.name
      ∧ (binary_manager_register_kpart cfg st part_num part_size).kernel_info.version
          = st.kernel_info.version) := by
  constructor
  · rintro ⟨h1, h2, h3, h4⟩
    have hc : ¬ (part_num < 0 ∨ part_size ≤ 0
        ∨ st.kernel_info.part_count ≥ cfg.KERNEL_BIN_COUNT) := by
      intro hn
      rcases hn with h | h | h <;> omega
    simp only [binary_manager_register_kpart, if_neg hc, if_pos h3, and_self]
  · intro hn
    by_cases hc : part_num < 0 ∨ part_size ≤ 0
        ∨ st.kernel_info.part_count ≥ cfg.KERNEL_BIN_COUNT
    · simp only [binary_manager_register_kpart, if_pos hc, and_self]
    · have h0 : st.kernel_info.part_count ≠ 0 := by
        intro h0
        apply hn
        simp only [not_or, not_lt, not_le, ge_iff_le] at hc
        exact ⟨hc.1, hc.2.1, h0, by omega⟩
      simp [binary_manager_register_kpart, hc, h0]

theorem run_kpart_name_version (cfg : Config) (calls : List (Int × Int)) (st : State)
    (hinv : 0 < st.kernel_info.part_count →
      st.kernel_info.name = strncpy kernel_str cfg.BIN_NAME_MAX
      ∧ st.kernel_info.version = strncpy cfg.KERNEL_VER cfg.KERNEL_VER_MAX)
    (hpos : 0 < (run_kpart cfg st calls).kernel_info.part_count) :
    (run_kpart cfg st calls).kernel_info.name = strncpy kernel_str cfg.BIN_NAME_MAX
    ∧ (run_kpart cfg st calls).kernel_info.version
        = strncpy cfg.KERNEL_VER cfg.KERNEL_VER_MAX := by
  induction calls generalizing st with
  | nil => exact hinv hpos
  | cons c cs ih =>
    simp only [run_kpart] at hpos ⊢
    apply ih _ _ hpos
    intro hp
    by_cases hfirst : 0 ≤ c.1 ∧ 0 < c.2 ∧ st.kernel_info.part_count = 0
        ∧ 0 < cfg.KERNEL_BIN_COUNT
    · exact (register_kpart_name_version cfg st c.1 c.2).1 hfirst
    · have hsame := (register_kpart_name_version cfg st c.1 c.2).2 hfirst
      rw [hsame.1, hsame.2]
      apply hinv
      by_contra h0
      have h0 : st.kernel_info.part_count = 0 := by omega
      by_cases hacc : 0 ≤ c.1 ∧ 0 < c.2
          ∧ st.kernel_info.part_count < cfg.KERNEL_BIN_COUNT
      · exact hfirst ⟨hacc.1, hacc.2.1, h0, by omega⟩
      · rw [register_kpart_rejected cfg st c.1 c.2 hacc] at hp
        omega

/-- C8, as the code has it: a call that passes the check of its arguments
while `part_count = 0` (the first accepted call) sets the kernel name to
"kernel" and the version to `KERNEL_VER`, as `strncpy` stores them; every
other call leaves name and version unchanged; and in every state reached
from the initial state with `part_count > 0` the name is "kernel" and the
version is `KERNEL_VER`. -/
theorem kpart_name_version (cfg : Config) :
    (∀ (st : State) (part_num part_size : Int),
      (0 ≤ part_num ∧ 0 < part_size ∧ st.kernel_info.part_count = 0
          ∧ 0 < cfg.KERNEL_BIN_COUNT →
        (binary_manager_register_kpart cfg st part_num part_size).kernel_info.name
            = strncpy kernel_str cfg.BIN_NAME_MAX
        ∧ (binary_manager_register_kpart cfg st part_num part_size).kernel_info.version
            = strncpy cfg.KERNEL_VER cfg.KERNEL_VER_MAX)
      ∧ (¬ (0 ≤ part_num ∧ 0 < part_size ∧ st.kernel_info.part_count = 0
          ∧ 0 < cfg.KERNEL_BIN_COUNT) →
        (binary_manager_register_kpart cfg st part_num part_size).kernel_info.name
            = st.kernel_info.name
        ∧ (binary_manager_register_kpart cfg st part_num part_size).kernel_info.version
            = st.kernel_info.version))
    ∧ ∀ calls : List (Int × Int),
        0 < binary_manager_get_kcount (run_kpart cfg (init cfg) calls) →
        (run_kpart cfg (init cfg) calls).kernel_info.name
            = strncpy kernel_str cfg.BIN_NAME_MAX
        ∧ (run_kpart cfg (init cfg) calls).kernel_info.version
            = strncpy cfg.KERNEL_VER cfg.KERNEL_VER_MAX := by
  refine ⟨fun st part_num part_size => register_kpart_name_version cfg st part_num part_size, ?_⟩
  intro calls hpos
  apply run_kpart_name_version cfg calls (init cfg) _ hpos
  intro h0
  exact absurd h0 (Nat.lt_irrefl 0)

/-- C8, at an instance: after a rejected and an accepted call the kernel name
of the example configuration is "kernel", NUL-padded to 16 bytes, and the
version is "2.0", NUL-padded to 8 bytes. -/
theorem kpart_name_version_witness :
    (run_kpart cfg0 (init cfg0) [(-1, 5), (3, 10)]).kernel_info.name
        = [107, 101, 114, 110, 101, 108, 0, 0, 0, 0, 0, 0, 0, 0, 0, 0]
    ∧ (run_kpart cfg0 (init cfg0) [(-1, 5), (3, 10)]).kernel_info.version
        = [50, 46, 48, 0, 0, 0, 0, 0] :=
  (kpart_name_version cfg0).2 [(-1, 5), (3, 10)] (by decide)

/-- C8 fails as stated: a first call with a negative partition number does
not set the kernel name, which stays empty, and the call after it changes
the name. -/
theorem register_kpart_first_call_rejected :
    (binary_manager_register_kpart cfg0 (init cfg0) (-1) 5).kernel_info.name
        = List.replicate 16 0
    ∧ (binary_manager_register_kpart cfg0 (init cfg0) (-1) 5).kernel_info.name
        ≠ strncpy kernel_str cfg0.BIN_NAME_MAX
    ∧ (binary_manager_register_kpart cfg0
          (binary_manager_register_kpart cfg0 (init cfg0) (-1) 5) 3 10).kernel_info.name
        ≠ (binary_manager_register_kpart cfg0 (init cfg0) (-1) 5).kernel_info.name := by
  refine ⟨rfl, ?_, ?_⟩ <;> decide

/-! ## Properties of the update of the running state -/

/-- C9, as the code has it: `binary_manager_update_running_state` sets the
state of the slot that the lookup resolves to `BINARY_RUNNING` whatever the
state of the slot was; no transition is rejected. -/
theorem update_running_state_sets_running (cfg : Config) (st : State) (bin_id : Int)
    (hpos : 0 < bin_id) (hidx : 0 ≤ binary_manager_get_index_with_binid st bin_id) :
    (binary_manager_get_udata (binary_manager_update_running_state cfg st bin_id).1
      (binary_manager_get_index_with_binid st bin_id).toNat).state = BINARY_RUNNING := by
  have h1 : ¬ bin_id ≤ 0 := by omega
  have h2 : ¬ binary_manager_get_index_with_binid st bin_id < 0 := by omega
  simp [binary_manager_update_running_state, binary_manager_get_udata, h1, h2]

/-- C9, at an instance: the binary of id 5 in slot 1, in state
`BINARY_FAULT`, is set to `BINARY_RUNNING`. -/
theorem update_running_state_sets_running_witness :
    (binary_manager_get_udata (binary_manager_update_running_state cfg0 st_fault 5).1
      (binary_manager_get_index_with_binid st_fault 5).toNat).state = BINARY_RUNNING :=
  update_running_state_sets_running cfg0 st_fault 5 (by decide) (by decide)

/-- C9 fails as stated: the slot of the binary of id 5 is in state
`BINARY_FAULT`, not `BINARY_LOADING_DONE`; the call is not rejected, and the
state of the slot changes to `BINARY_RUNNING`. -/
theorem update_running_state_from_fault :
    binary_manager_get_index_with_binid st_fault 5 = 1
    ∧ (binary_manager_get_udata st_fault 1).state = BINARY_FAULT
    ∧ (binary_manager_get_udata (binary_manager_update_running_state cfg0 st_fault 5).1 1).state
        = BINARY_RUNNING
    ∧ (binary_manager_get_udata (binary_manager_update_running_state cfg0 st_fault 5).1 1).state
        ≠ (binary_manager_get_udata st_fault 1).state := by
  refine ⟨rfl, rfl, rfl, ?_⟩
  decide

/-! ## Properties of the list of the tasks of a binary -/

theorem forward_congr (fl fl1 : Nat → Option Nat) (root tcb : Nat)
    (hfl : ∀ x, x ≠ root → x ≠ tcb → fl1 x = fl x) (k : Nat) (cur : Option Nat)
    (hnot : tcb ∉ forward fl root k cur) :
    forward fl1 root k cur = forward fl root k cur := by
  induction k generalizing cur with
  | zero => rfl
  | succ k ih =>
    cases cur with
    | none => rfl
    | some x =>
      by_cases hx : x = root
      · simp [forward, hx]
      · simp only [forward, if_neg hx, List.mem_cons, not_or] at hnot ⊢
        have hxt : x ≠ tcb := fun h => hnot.1 h.symm
        rw [hfl x hx hxt, ih (fl x) hnot.2]

theorem add_binlist_flink (t : Tasks) (tcb : Nat) :
    (binary_manager_add_binlist t tcb).bin_flink
      = Function.update (Function.update t.bin_flink tcb (t.bin_flink t.this_task))
          t.this_task (some tcb) := by
  unfold binary_manager_add_binlist
  dsimp only
  generalize t.bin_flink t.this_task = next
  cases next <;> rfl

theorem add_binlist_blink (t : Tasks) (tcb : Nat) :
    (binary_manager_add_binlist t tcb).bin_blink
      = match t.bin_flink t.this_task with
        | none => Function.update t.bin_blink tcb (some t.this_task)
        | some n =>
          Function.update (Function.update t.bin_blink tcb (some t.this_task)) n (some tcb) := by
  unfold binary_manager_add_binlist
  dsimp only
  generalize t.bin_flink t.this_task = next
  cases next <;> rfl

/-- C10: for every task list and every task `tcb` distinct from the current
task `r` and not among the successors of `r`: after
`binary_manager_add_binlist(tcb)`, `r.bin_flink = tcb`, `tcb.bin_blink = r`,
`tcb.bin_flink` is the old `r.bin_flink`, `n`, and `n.bin_blink = tcb` when
`n` is not null; the forward traversal from `r` is `r`, `tcb`, then the old
successors of `r` in their old order. -/
theorem add_binlist_links (t : Tasks) (tcb : Nat) (hne : tcb ≠ t.this_task)
    (hnew : ∀ k, tcb ∉ forward t.bin_flink t.this_task k (t.bin_flink t.this_task)) :
    (binary_manager_add_binlist t tcb).bin_flink t.this_task = some tcb
    ∧ (binary_manager_add_binlist t tcb).bin_blink tcb = some t.this_task
    ∧ (binary_manager_add_binlist t tcb).bin_flink tcb = t.bin_flink t.this_task
    ∧ (∀ n, t.bin_flink t.this_task = some n →
        (binary_manager_add_binlist t tcb).bin_blink n = some tcb)
    ∧ ∀ k, traversal (binary_manager_add_binlist t tcb) t.this_task (k + 1)
        = t.this_task :: tcb :: forward t.bin_flink t.this_task k (t.bin_flink t.this_task) := by
  have hnext : t.bin_flink t.this_task ≠ some tcb := by
    intro h
    have h1 := hnew 1
    rw [h] at h1
    simp [forward, hne] at h1
  refine ⟨?_, ?_, ?_, ?_, ?_⟩
  · rw [add_binlist_flink]
    simp
  · rw [add_binlist_blink]
    cases hn : t.bin_flink t.this_task with
    | none => simp
    | some n =>
      have hnt : tcb ≠ n := by
        intro h
        apply hnext
        rw [hn, h]
      simp [Function.update, hnt]
  · rw [add_binlist_flink]
    simp [Function.update, hne]
  · intro n hn
    rw [add_binlist_blink, hn]
    simp
  · intro k
    have hfl : ∀ x, x ≠ t.this_task → x ≠ tcb →
        (binary_manager_add_binlist t tcb).bin_flink x = t.bin_flink x := by
      intro x hx1 hx2
      rw [add_binlist_flink]
      simp [Function.update, hx1, hx2]
    have h1 : (binary_manager_add_binlist t tcb).bin_flink t.this_task = some tcb := by
      rw [add_binlist_flink]
      simp
    have h2 : (binary_manager_add_binlist t tcb).bin_flink tcb = t.bin_flink t.this_task := by
      rw [add_binlist_flink]
      simp [Function.update, hne]
    simp only [traversal, h1, forward, if_neg hne, h2]
    rw [forward_congr t.bin_flink _ t.this_task tcb hfl k _ (hnew k)]

theorem forward_none (fl : Nat → Option Nat) (root k : Nat) : forward fl root k none = [] := by
  cases k <;> rfl

theorem tasks0_successors (k : Nat) :
    4 ∉ forward tasks0.bin_flink tasks0.this_task k (tasks0.bin_flink tasks0.this_task) := by
  rcases k with _ | _ | _ | k
  · decide
  · decide
  · decide
  · have h : forward tasks0.bin_flink tasks0.this_task (k + 1 + 1 + 1)
        (tasks0.bin_flink tasks0.this_task) = [2, 3] := by
      simp [forward, tasks0, forward_none]
    rw [h]
    decide

/-- C10, at an instance: task 4 is added to the list 1, 2, 3 of the current
task 1; the list becomes 1, 4, 2, 3. -/
theorem add_binlist_links_witness :
    (binary_manager_add_binlist tasks0 4).bin_flink 1 = some 4
    ∧ (binary_manager_add_binlist tasks0 4).bin_blink 4 = some 1
    ∧ (binary_manager_add_binlist tasks0 4).bin_flink 4 = some 2
    ∧ (binary_manager_add_binlist tasks0 4).bin_blink 2 = some 4
    ∧ traversal (binary_manager_add_binlist tasks0 4) 1 3 = [1, 4, 2, 3] :=
  ⟨(add_binlist_links tasks0 4 (by decide) tasks0_successors).1,
   (add_binlist_links tasks0 4 (by decide) tasks0_successors).2.1,
   (add_binlist_links tasks0 4 (by decide) tasks0_successors).2.2.1,
   (add_binlist_links tasks0 4 (by decide) tasks0_successors).2.2.2.1 2 rfl,
   (add_binlist_links tasks0 4 (by decide) tasks0_successors).2.2.2.2 2⟩

/-! ### Removal from the list -/

theorem Tasks_eq (a b : Tasks) (h1 : a.this_task = b.this_task)
    (h2 : a.bin_flink = b.bin_flink) (h3 : a.bin_blink = b.bin_blink) : a = b := by
  cases a
  cases b
  simp only [Tasks.mk.injEq]
  exact ⟨h1, h2, h3⟩

theorem remove_binlist_this_task (t : Tasks) (tcb : Nat) :
    (binary_manager_remove_binlist t tcb).this_task = t.this_task := by
  unfold binary_manager_remove_binlist
  dsimp only
  generalize t.bin_blink tcb = prev
  generalize t.bin_flink tcb = next
  cases prev <;> cases next <;> rfl

theorem remove_binlist_flink (t : Tasks) (tcb : Nat) :
    (binary_manager_remove_binlist t tcb).bin_flink
      = match t.bin_blink tcb with
        | none => t.bin_flink
        | some p => Function.update t.bin_flink p (t.bin_flink tcb) := by
  unfold binary_manager_remove_binlist
  dsimp only
  generalize t.bin_blink tcb = prev
  generalize t.bin_flink tcb = next
  cases prev <;> cases next <;> rfl

theorem remove_binlist_blink (t : Tasks) (tcb : Nat) :
    (binary_manager_remove_binlist t tcb).bin_blink
      = match t.bin_flink tcb with
        | none => t.bin_blink
        | some n => Function.update t.bin_blink n (t.bin_blink tcb) := by
  unfold binary_manager_remove_binlist
  dsimp only
  generalize t.bin_blink tcb = prev
  generalize t.bin_flink tcb = next
  cases prev <;> cases next <;> rfl

theorem remove_binlist_flink_other (t : Tasks) (tcb x : Nat) (hx : t.bin_blink tcb ≠ some x) :
    (binary_manager_remove_binlist t tcb).bin_flink x = t.bin_flink x := by
  rw [remove_binlist_flink]
  cases hp : t.bin_blink tcb with
  | none => rfl
  | some p =>
    have hne : x ≠ p := by
      intro h
      apply hx
      rw [hp, h]
    exact Function.update_noteq hne _ _

theorem remove_binlist_blink_other (t : Tasks) (tcb x : Nat) (hx : t.bin_flink tcb ≠ some x) :
    (binary_manager_remove_binlist t tcb).bin_blink x = t.bin_blink x := by
  rw [remove_binlist_blink]
  cases hn : t.bin_flink tcb with
  | none => rfl
  | some n =>
    have hne : x ≠ n := by
      intro h
      apply hx
      rw [hn, h]
    exact Function.update_noteq hne _ _

theorem remove_binlist_flink_prev (t : Tasks) (tcb p : Nat) (hp : t.bin_blink tcb = some p) :
    (binary_manager_remove_binlist t tcb).bin_flink p = t.bin_flink tcb := by
  rw [remove_binlist_flink, hp]
  exact Function.update_same _ _ _

theorem remove_binlist_blink_next (t : Tasks) (tcb n : Nat) (hn : t.bin_flink tcb = some n) :
    (binary_manager_remove_binlist t tcb).bin_blink n = t.bin_blink tcb := by
  rw [remove_binlist_blink, hn]
  exact Function.update_same _ _ _

theorem remove_binlist_flink_own (t : Tasks) (tcb : Nat) :
    (binary_manager_remove_binlist t tcb).bin_flink tcb = t.bin_flink tcb := by
  by_cases h : t.bin_blink tcb = some tcb
  · exact remove_binlist_flink_prev t tcb tcb h
  · exact remove_binlist_flink_other t tcb tcb h

theorem remove_binlist_blink_own (t : Tasks) (tcb : Nat) :
    (binary_manager_remove_binlist t tcb).bin_blink tcb = t.bin_blink tcb := by
  by_cases h : t.bin_flink tcb = some tcb
  · exact remove_binlist_blink_next t tcb tcb h
  · exact remove_binlist_blink_other t tcb tcb h

/-- The call `binary_manager_remove_binlist(tcb)` changes nothing exactly
when the forward link of the task before `tcb` and the backward link of the
task after `tcb` already have the values that the call stores. -/
theorem remove_binlist_eq_self_iff (t : Tasks) (tcb : Nat) :
    binary_manager_remove_binlist t tcb = t ↔
      (∀ p, t.bin_blink tcb = some p → t.bin_flink p = t.bin_flink tcb)
      ∧ (∀ n, t.bin_flink tcb = some n → t.bin_blink n = t.bin_blink tcb) := by
  constructor
  · intro h
    constructor
    · intro p hp
      have h1 := remove_binlist_flink_prev t tcb p hp
      rw [h] at h1
      exact h1
    · intro n hn
      have h1 := remove_binlist_blink_next t tcb n hn
      rw [h] at h1
      exact h1
  · rintro ⟨h1, h2⟩
    apply Tasks_eq
    · exact remove_binlist_this_task t tcb
    · funext x
      by_cases hx : t.bin_blink tcb = some x
      · rw [remove_binlist_flink_prev t tcb x hx, h1 x hx]
      · exact remove_binlist_flink_other t tcb x hx
    · funext x
      by_cases hx : t.bin_flink tcb = some x
      · rw [remove_binlist_blink_next t tcb x hx, h2 x hx]
      · exact remove_binlist_blink_other t tcb x hx

/-- C20: `binary_manager_remove_binlist(tcb)` modifies at most two links, the
`bin_flink` of the task before `tcb` and the `bin_blink` of the task after
`tcb`; the `bin_flink` and `bin_blink` of `tcb` itself keep their values, and
the links of every other task are unchanged. -/
theorem remove_binlist_frame (t : Tasks) (tcb : Nat) :
    (∀ x, t.bin_blink tcb ≠ some x →
      (binary_manager_remove_binlist t tcb).bin_flink x = t.bin_flink x)
    ∧ (∀ x, t.bin_flink tcb ≠ some x →
      (binary_manager_remove_binlist t tcb).bin_blink x = t.bin_blink x)
    ∧ (∀ p, t.bin_blink tcb = some p →
      (binary_manager_remove_binlist t tcb).bin_flink p = t.bin_flink tcb)
    ∧ (∀ n, t.bin_flink tcb = some n →
      (binary_manager_remove_binlist t tcb).bin_blink n = t.bin_blink tcb)
    ∧ (binary_manager_remove_binlist t tcb).bin_flink tcb = t.bin_flink tcb
    ∧ (binary_manager_remove_binlist t tcb).bin_blink tcb = t.bin_blink tcb :=
  ⟨remove_binlist_flink_other t tcb, remove_binlist_blink_other t tcb,
   remove_binlist_flink_prev t tcb, remove_binlist_blink_next t tcb,
   remove_binlist_flink_own t tcb, remove_binlist_blink_own t tcb⟩

/-- C20, at an instance: task 2 is removed from the list 1, 2, 3; the
forward link of 1 and the backward link of 3 change, task 2 keeps its
links. -/
theorem remove_binlist_frame_witness :
    (binary_manager_remove_binlist tasks0 2).bin_flink 1 = some 3
    ∧ (binary_manager_remove_binlist tasks0 2).bin_blink 3 = some 1
    ∧ (binary_manager_remove_binlist tasks0 2).bin_flink 2 = some 3
    ∧ (binary_manager_remove_binlist tasks0 2).bin_blink 2 = some 1
    ∧ (binary_manager_remove_binlist tasks0 2).bin_flink 3 = tasks0.bin_flink 3
    ∧ (binary_manager_remove_binlist tasks0 2).bin_blink 1 = tasks0.bin_blink 1 :=
  ⟨(remove_binlist_frame tasks0 2).2.2.1 1 rfl,
   (remove_binlist_frame tasks0 2).2.2.2.1 3 rfl,
   (remove_binlist_frame tasks0 2).2.2.2.2.1,
   (remove_binlist_frame tasks0 2).2.2.2.2.2,
   (remove_binlist_frame tasks0 2).1 3 (by decide),
   (remove_binlist_frame tasks0 2).2.1 1 (by decide)⟩

/-- C12: `binary_manager_remove_binlist` is idempotent, two calls in a row
for the same task leave the state that one call leaves; and for a task whose
`bin_flink` and `bin_blink` are both null the call changes nothing. -/
theorem remove_binlist_idempotent (t : Tasks) (tcb : Nat) :
    binary_manager_remove_binlist (binary_manager_remove_binlist t tcb) tcb
        = binary_manager_remove_binlist t tcb
    ∧ (t.bin_flink tcb = none → t.bin_blink tcb = none →
        binary_manager_remove_binlist t tcb = t) := by
  constructor
  · rw [remove_binlist_eq_self_iff, remove_binlist_flink_own, remove_binlist_blink_own]
    exact ⟨fun p hp => remove_binlist_flink_prev t tcb p hp,
      fun n hn => remove_binlist_blink_next t tcb n hn⟩
  · intro h1 h2
    rw [remove_binlist_eq_self_iff, h1, h2]
    exact ⟨fun p hp => absurd hp (by simp), fun n hn => absurd hn (by simp)⟩

/-- C12, at an instance: task 2 is removed twice from the list 1, 2, 3, and
task 9, which has no links, is removed. -/
theorem remove_binlist_idempotent_witness :
    binary_manager_remove_binlist (binary_manager_remove_binlist tasks0 2) 2
        = binary_manager_remove_binlist tasks0 2
    ∧ binary_manager_remove_binlist tasks0 9 = tasks0 :=
  ⟨(remove_binlist_idempotent tasks0 2).1, (remove_binlist_idempotent tasks0 9).2 rfl rfl⟩

/-! ### Links after an addition -/

theorem add_binlist_flink_cur (t : Tasks) (tcb : Nat) :
    (binary_manager_add_binlist t tcb).bin_flink t.this_task = some tcb := by
  rw [add_binlist_flink]
  exact Function.update_same _ _ _

theorem add_binlist_flink_new (t : Tasks) (tcb : Nat) (hne : tcb ≠ t.this_task) :
    (binary_manager_add_binlist t tcb).bin_flink tcb = t.bin_flink t.this_task := by
  rw [add_binlist_flink, Function.update_noteq hne]
  exact Function.update_same _ _ _

theorem add_binlist_flink_other (t : Tasks) (tcb x : Nat) (h1 : x ≠ t.this_task)
    (h2 : x ≠ tcb) : (binary_manager_add_binlist t tcb).bin_flink x = t.bin_flink x := by
  rw [add_binlist_flink, Function.update_noteq h1, Function.update_noteq h2]

theorem add_binlist_blink_new (t : Tasks) (tcb : Nat)
    (hn : t.bin_flink t.this_task ≠ some tcb) :
    (binary_manager_add_binlist t tcb).bin_blink tcb = some t.this_task := by
  rw [add_binlist_blink]
  cases hx : t.bin_flink t.this_task with
  | none => exact Function.update_same _ _ _
  | some n =>
    have hne : tcb ≠ n := by
      intro h
      apply hn
      rw [hx, h]
    show Function.update (Function.update t.bin_blink tcb (some t.this_task)) n (some tcb) tcb
      = some t.this_task
    rw [Function.update_noteq hne]
    exact Function.update_same _ _ _

theorem add_binlist_blink_next (t : Tasks) (tcb n : Nat)
    (hn : t.bin_flink t.this_task = some n) :
    (binary_manager_add_binlist t tcb).bin_blink n = some tcb := by
  rw [add_binlist_blink, hn]
  exact Function.update_same _ _ _

theorem add_binlist_blink_other (t : Tasks) (tcb x : Nat) (h1 : x ≠ tcb)
    (h2 : t.bin_flink t.this_task ≠ some x) :
    (binary_manager_add_binlist t tcb).bin_blink x = t.bin_blink x := by
  rw [add_binlist_blink]
  cases hx : t.bin_flink t.this_task with
  | none => exact Function.update_noteq h1 _ _
  | some n =>
    have hne : x ≠ n := by
      intro h
      apply h2
      rw [hx, h]
    show Function.update (Function.update t.bin_blink tcb (some t.this_task)) n (some tcb) x
      = t.bin_blink x
    rw [Function.update_noteq hne, Function.update_noteq h1]

theorem is_chain_nil (t : Tasks) (a : Nat) :
    is_chain t a [] = true ↔ t.bin_flink a = none := by
  simp [is_chain]

theorem is_chain_cons (t : Tasks) (a b : Nat) (l : List Nat) :
    is_chain t a (b :: l) = true ↔
      t.bin_flink a = some b ∧ t.bin_blink b = some a ∧ is_chain t b l = true := by
  simp [is_chain]

theorem is_chain_congr (t t1 : Tasks) (a : Nat) (l : List Nat)
    (hf : ∀ x, x ∈ a :: l → t1.bin_flink x = t.bin_flink x)
    (hb : ∀ x, x ∈ l → t1.bin_blink x = t.bin_blink x)
    (h : is_chain t a l = true) : is_chain t1 a l = true := by
  induction l generalizing a with
  | nil =>
    rw [is_chain_nil] at h ⊢
    rw [hf a (List.mem_cons_self _ _), h]
  | cons b l ih =>
    rw [is_chain_cons] at h ⊢
    refine ⟨?_, ?_, ?_⟩
    · rw [hf a (List.mem_cons_self _ _), h.1]
    · rw [hb b (List.mem_cons_self _ _), h.2.1]
    · exact ih b (fun x hx => hf x (List.mem_cons_of_mem _ hx))
        (fun x hx => hb x (List.mem_cons_of_mem _ hx)) h.2.2

theorem chain_succ (t : Tasks) (a : Nat) (l : List Nat) (h : is_chain t a l = true)
    (x n : Nat) (hx : x ∈ a :: l) (hn : t.bin_flink x = some n) (hnd : (a :: l).Nodup) :
    n ∈ l ∧ t.bin_blink n = some x := by
  induction l generalizing a with
  | nil =>
    rw [is_chain_nil] at h
    have hxa : x = a := by simpa using hx
    rw [hxa, h] at hn
    exact absurd hn (by simp)
  | cons b l ih =>
    rw [is_chain_cons] at h
    rcases List.mem_cons.mp hx with hxa | hxl
    · rw [hxa, h.1] at hn
      have hbn : b = n := Option.some.inj hn
      rw [← hbn, hxa]
      exact ⟨List.mem_cons_self _ _, h.2.1⟩
    · have h1 := ih b h.2.2 hxl (List.nodup_cons.mp hnd).2
      exact ⟨List.mem_cons_of_mem _ h1.1, h1.2⟩

theorem chain_pred (t : Tasks) (a : Nat) (l : List Nat) (h : is_chain t a l = true)
    (x : Nat) (hx : x ∈ l) : ∃ p, t.bin_blink x = some p ∧ p ∈ a :: l := by
  induction l generalizing a with
  | nil => exact absurd hx (List.not_mem_nil _)
  | cons b l ih =>
    rw [is_chain_cons] at h
    rcases List.mem_cons.mp hx with hxb | hxl
    · rw [hxb]
      exact ⟨a, h.2.1, List.mem_cons_self _ _⟩
    · obtain ⟨p, hp, hpm⟩ := ih b h.2.2 hxl
      exact ⟨p, hp, List.mem_cons_of_mem _ hpm⟩

theorem mem_chain_insert (r tcb a : Nat) (l : List Nat) (x : Nat)
    (hx : x ∈ chain_insert r tcb a l) : x = tcb ∨ x ∈ l := by
  induction l generalizing a with
  | nil =>
    by_cases har : a = r
    · simp only [chain_insert, if_pos har, List.mem_singleton] at hx
      exact Or.inl hx
    · simp only [chain_insert, if_neg har] at hx
      exact absurd hx (List.not_mem_nil _)
  | cons b l ih =>
    by_cases har : a = r
    · simp only [chain_insert, if_pos har] at hx
      rcases List.mem_cons.mp hx with h | h
      · exact Or.inl h
      · exact Or.inr h
    · simp only [chain_insert, if_neg har] at hx
      rcases List.mem_cons.mp hx with h | h
      · exact Or.inr (by rw [h]; exact List.mem_cons_self _ _)
      · rcases ih b h with h1 | h1
        · exact Or.inl h1
        · exact Or.inr (List.mem_cons_of_mem _ h1)

theorem nodup_chain_insert (r tcb a : Nat) (l : List Nat) (hnd : (a :: l).Nodup)
    (hnew : tcb ∉ a :: l) : (a :: chain_insert r tcb a l).Nodup := by
  induction l generalizing a with
  | nil =>
    by_cases har : a = r
    · simp only [chain_insert, if_pos har]
      have hat : a ≠ tcb := fun h => hnew (by rw [h]; exact List.mem_cons_self _ _)
      simp [hat]
    · simp [chain_insert, if_neg har]
  | cons b l ih =>
    have hnd1 := List.nodup_cons.mp hnd
    by_cases har : a = r
    · simp only [chain_insert, if_pos har]
      refine List.nodup_cons.mpr ⟨?_, List.nodup_cons.mpr ⟨?_, hnd1.2⟩⟩
      · intro hm
        rcases List.mem_cons.mp hm with h | h
        · exact hnew (by rw [← h]; exact List.mem_cons_self _ _)
        · exact hnd1.1 h
      · exact fun hm => hnew (List.mem_cons_of_mem _ hm)
    · simp only [chain_insert, if_neg har]
      refine List.nodup_cons.mpr ⟨?_, ih b hnd1.2 (fun hm => hnew (List.mem_cons_of_mem _ hm))⟩
      intro hm
      rcases List.mem_cons.mp hm with h | h
      · exact hnd1.1 (by rw [h]; exact List.mem_cons_self _ _)
      · rcases mem_chain_insert r tcb b l a h with h1 | h1
        · exact hnew (by rw [← h1]; exact List.mem_cons_self _ _)
        · exact hnd1.1 (List.mem_cons_of_mem _ h1)

theorem add_binlist_chain (t : Tasks) (tcb a : Nat) (l : List Nat)
    (h : is_chain t a l = true) (hnd : (a :: l).Nodup) (hcur : t.this_task ∈ a :: l)
    (hnew : tcb ∉ a :: l) :
    is_chain (binary_manager_add_binlist t tcb) a (chain_insert t.this_task tcb a l) = true := by
  have hne : tcb ≠ t.this_task := fun h => hnew (by rw [h]; exact hcur)
  induction l generalizing a with
  | nil =>
    have har : a = t.this_task := (List.mem_singleton.mp hcur).symm
    rw [is_chain_nil] at h
    simp only [chain_insert, if_pos har]
    rw [har] at h
    rw [har, is_chain_cons, is_chain_nil]
    refine ⟨add_binlist_flink_cur t tcb, add_binlist_blink_new t tcb (by rw [h]; simp), ?_⟩
    rw [add_binlist_flink_new t tcb hne, h]
  | cons b l ih =>
    have hnd1 := List.nodup_cons.mp hnd
    rw [is_chain_cons] at h
    have hbt : b ≠ tcb := fun hb =>
      hnew (by rw [← hb]; exact List.mem_cons_of_mem _ (List.mem_cons_self _ _))
    by_cases har : a = t.this_task
    · simp only [chain_insert, if_pos har]
      rw [har] at h
      rw [har, is_chain_cons, is_chain_cons]
      refine ⟨add_binlist_flink_cur t tcb, ?_, ?_, add_binlist_blink_next t tcb b h.1, ?_⟩
      · apply add_binlist_blink_new
        rw [h.1]
        exact fun hb => hbt (Option.some.inj hb)
      · rw [add_binlist_flink_new t tcb hne, h.1]
      · apply is_chain_congr t _ b l _ _ h.2.2
        · intro x hx
          apply add_binlist_flink_other
          · intro hxr
            apply hnd1.1
            rw [har, ← hxr]
            exact hx
          · exact fun hxt => hnew (by rw [← hxt]; exact List.mem_cons_of_mem _ hx)
        · intro x hx
          apply add_binlist_blink_other
          · exact fun hxt => hnew (by
              rw [← hxt]
              exact List.mem_cons_of_mem _ (List.mem_cons_of_mem _ hx))
          · rw [h.1]
            intro hb
            have hbx : b = x := Option.some.inj hb
            exact (List.nodup_cons.mp hnd1.2).1 (by rw [hbx]; exact hx)
    · simp only [chain_insert, if_neg har]
      have hcur1 : t.this_task ∈ b :: l := by
        rcases List.mem_cons.mp hcur with hc | hc
        · exact absurd hc.symm har
        · exact hc
      rw [is_chain_cons]
      refine ⟨?_, ?_, ih b h.2.2 hnd1.2 hcur1 (fun hm => hnew (List.mem_cons_of_mem _ hm))⟩
      · rw [add_binlist_flink_other t tcb a har
          (fun hat => hnew (by rw [← hat]; exact List.mem_cons_self _ _))]
        exact h.1
      · rw [add_binlist_blink_other t tcb b hbt]
        · exact h.2.1
        · intro hn
          have h1 := chain_succ t b l h.2.2 t.this_task b hcur1 hn hnd1.2
          exact (List.nodup_cons.mp hnd1.2).1 h1.1

theorem remove_binlist_chain (t : Tasks) (tcb a : Nat) (l : List Nat)
    (h : is_chain t a l = true) (hnd : (a :: l).Nodup) (hmem : tcb ∈ l) :
    is_chain (binary_manager_remove_binlist t tcb) a (l.erase tcb) = true := by
  induction l generalizing a with
  | nil => exact absurd hmem (List.not_mem_nil _)
  | cons b l ih =>
    have hnd1 := List.nodup_cons.mp hnd
    have hnd2 := List.nodup_cons.mp hnd1.2
    rw [is_chain_cons] at h
    by_cases hb : b = tcb
    · rw [hb, List.erase_cons_head]
      rw [hb] at h hnd1 hnd2
      cases l with
      | nil =>
        rw [is_chain_nil] at h ⊢
        rw [remove_binlist_flink_prev t tcb a h.2.1]
        exact h.2.2
      | cons c l =>
        rw [is_chain_cons] at h ⊢
        refine ⟨?_, ?_, ?_⟩
        · rw [remove_binlist_flink_prev t tcb a h.2.1]
          exact h.2.2.1
        · rw [remove_binlist_blink_next t tcb c h.2.2.1]
          exact h.2.1
        · apply is_chain_congr t _ c l _ _ h.2.2.2.2
          · intro x hx
            apply remove_binlist_flink_other
            rw [h.2.1]
            intro hax
            have hax1 : a = x := Option.some.inj hax
            exact hnd1.1 (by rw [hax1]; exact List.mem_cons_of_mem _ hx)
          · intro x hx
            apply remove_binlist_blink_other
            rw [h.2.2.1]
            intro hcx
            have hcx1 : c = x := Option.some.inj hcx
            exact (List.nodup_cons.mp hnd2.2).1 (by rw [hcx1]; exact hx)
    · have hmem1 : tcb ∈ l := by
        rcases List.mem_cons.mp hmem with hm | hm
        · exact absurd hm.symm hb
        · exact hm
      rw [List.erase_cons_tail (by simpa using hb), is_chain_cons]
      refine ⟨?_, ?_, ih b h.2.2 hnd1.2 hmem1⟩
      · rw [remove_binlist_flink_other t tcb a]
        · exact h.1
        · intro hp
          obtain ⟨p, hp1, hp2⟩ := chain_pred t b l h.2.2 tcb hmem1
          rw [hp1] at hp
          have hpa : p = a := Option.some.inj hp
          exact hnd1.1 (by rw [← hpa]; exact hp2)
      · rw [remove_binlist_blink_other t tcb b]
        · exact h.2.1
        · intro hn
          have h1 := chain_succ t b l h.2.2 tcb b (List.mem_cons_of_mem _ hmem1) hn hnd1.2
          exact hnd2.1 h1.1

/-- C13: well-formedness of the task list is preserved by
`binary_manager_add_binlist(tcb)` when the current task is on the chain and
`tcb` is not, the new chain having `tcb` directly behind the current task;
and by `binary_manager_remove_binlist(tcb)` when `tcb` is on the chain and is
not the root, the new chain being the old one with `tcb` deleted and the
order of the other tasks kept. -/
theorem well_formed_preserved (t : Tasks) (root : Nat) (l : List Nat) (tcb : Nat)
    (hwf : well_formed t root l) :
    (t.this_task ∈ root :: l → tcb ∉ root :: l →
      well_formed (binary_manager_add_binlist t tcb) root
        (chain_insert t.this_task tcb root l))
    ∧ (tcb ∈ l →
      well_formed (binary_manager_remove_binlist t tcb) root (l.erase tcb)
      ∧ l.erase tcb = l.filter (fun x => decide (x ≠ tcb))) := by
  constructor
  · intro hcur hnew
    exact ⟨nodup_chain_insert t.this_task tcb root l hwf.1 hnew,
      add_binlist_chain t tcb root l hwf.2 hwf.1 hcur hnew⟩
  · intro hmem
    have hnd := List.nodup_cons.mp hwf.1
    refine ⟨⟨List.nodup_cons.mpr ⟨fun hm => hnd.1 (List.mem_of_mem_erase hm),
      hnd.2.erase tcb⟩, remove_binlist_chain t tcb root l hwf.2 hwf.1 hmem⟩, ?_⟩
    rw [hnd.2.erase_eq_filter]
    congr 1
    funext x
    by_cases hx : x = tcb <;> simp [hx]

/-- C13, at an instance: task 4 is added to the list 1, 2, 3 behind task 1,
and task 2 is removed from it. -/
theorem well_formed_preserved_witness :
    well_formed (binary_manager_add_binlist tasks0 4) 1 [4, 2, 3]
    ∧ well_formed (binary_manager_remove_binlist tasks0 2) 1 [3] :=
  ⟨(well_formed_preserved tasks0 1 [2, 3] 4 ⟨by decide, rfl⟩).1 (by decide) (by decide),
   ((well_formed_preserved tasks0 1 [2, 3] 2 ⟨by decide, rfl⟩).2 (by decide)).1⟩

/-- C18, as the code has it: after `binary_manager_remove_binlist(t)`,
followed by any sequence of add and remove operations that leaves the links
of `t` itself, the `bin_flink` of the task before `t` and the `bin_blink` of
the task after `t` as the first removal left them, a second
`binary_manager_remove_binlist(t)` leaves the forward and backward links of
every task unchanged. -/
theorem remove_binlist_again (t : Tasks) (tcb : Nat) (ops : List binlist_op)
    (hown : (run_binlist (binary_manager_remove_binlist t tcb) ops).bin_flink tcb
        = (binary_manager_remove_binlist t tcb).bin_flink tcb
      ∧ (run_binlist (binary_manager_remove_binlist t tcb) ops).bin_blink tcb
        = (binary_manager_remove_binlist t tcb).bin_blink tcb)
    (hprev : ∀ p, (binary_manager_remove_binlist t tcb).bin_blink tcb = some p →
      (run_binlist (binary_manager_remove_binlist t tcb) ops).bin_flink p
        = (binary_manager_remove_binlist t tcb).bin_flink p)
    (hnext : ∀ n, (binary_manager_remove_binlist t tcb).bin_flink tcb = some n →
      (run_binlist (binary_manager_remove_binlist t tcb) ops).bin_blink n
        = (binary_manager_remove_binlist t tcb).bin_blink n) :
    binary_manager_remove_binlist (run_binlist (binary_manager_remove_binlist t tcb) ops) tcb
      = run_binlist (binary_manager_remove_binlist t tcb) ops := by
  rw [remove_binlist_eq_self_iff, hown.1, hown.2]
  constructor
  · intro p hp
    rw [hprev p hp]
    rw [remove_binlist_blink_own] at hp
    rw [remove_binlist_flink_prev t tcb p hp, remove_binlist_flink_own]
  · intro n hn
    rw [hnext n hn]
    rw [remove_binlist_flink_own] at hn
    rw [remove_binlist_blink_next t tcb n hn, remove_binlist_blink_own]

/-- C18, at an instance: task 2 is removed from the list 1, 2, 3, task 5 is
added behind task 3, and task 2 is removed again. -/
theorem remove_binlist_again_witness :
    binary_manager_remove_binlist
        (run_binlist (binary_manager_remove_binlist tasks0 2) [binlist_op.add 3 5]) 2
      = run_binlist (binary_manager_remove_binlist tasks0 2) [binlist_op.add 3 5] :=
  remove_binlist_again tasks0 2 [binlist_op.add 3 5] ⟨rfl, rfl⟩
    (fun p hp => by
      have hp1 : 1 = p := Option.some.inj hp
      subst hp1
      rfl)
    (fun n hn => by
      have hn1 : 3 = n := Option.some.inj hn
      subst hn1
      rfl)

/-- C18 fails as stated: task 2 is removed from the list 1, 2, 3 and task 4
is added behind task 1, its former predecessor; the list is 1, 4, 3. The
second removal of task 2 changes the forward link of task 1 and the backward
link of task 3, and the list becomes 1, 3. -/
theorem remove_binlist_again_unlinks :
    traversal tasks1 1 3 = [1, 4, 3]
    ∧ tasks1.bin_flink 1 = some 4
    ∧ tasks1.bin_blink 3 = some 4
    ∧ (binary_manager_remove_binlist tasks1 2).bin_flink 1 = some 3
    ∧ (binary_manager_remove_binlist tasks1 2).bin_blink 3 = some 1
    ∧ traversal (binary_manager_remove_binlist tasks1 2) 1 3 = [1, 3] := by
  refine ⟨?_, ?_, ?_, ?_, ?_, ?_⟩ <;> decide

/-! ## Further properties of the registry -/

/-- C14, as the code has it: `binary_manager_register_ubin` returns the one
value `ERROR` for each of its three failure causes, the null name, the full
table and the name that is already registered. -/
theorem register_ubin_error_value (cfg : Config) (st : State) (nm : List Nat) :
    (binary_manager_register_ubin cfg st none).map Prod.fst = some ERROR
    ∧ (st.g_bin_count ≥ cfg.USER_BIN_COUNT →
        (binary_manager_register_ubin cfg st (some nm)).map Prod.fst = some ERROR)
    ∧ (ubin_scan cfg st.bin_table nm st.g_bin_count 1 = some true →
        (binary_manager_register_ubin cfg st (some nm)).map Prod.fst = some ERROR) := by
  refine ⟨rfl, ?_, ?_⟩
  · intro hfull
    rw [register_ubin_full cfg st nm hfull]
    rfl
  · intro hscan
    rw [register_ubin_collision cfg st nm hscan]
    rfl

/-- C14, at an instance: "camera" is already registered in slot 1 of a table
of two. -/
theorem register_ubin_error_value_witness :
    (binary_manager_register_ubin cfg0 st_camera (some camera)).map Prod.fst = some ERROR :=
  (register_ubin_error_value cfg0 st_camera camera).2.2 rfl

/-- C14 fails as stated: the value returned for the name "camera", which is
already registered, is the value returned for a null name and the value
returned for a new name when the table is full. -/
theorem register_ubin_errors_equal :
    (binary_manager_register_ubin cfg0 st_camera (some camera)).map Prod.fst
        = (binary_manager_register_ubin cfg0 st_camera none).map Prod.fst
    ∧ (binary_manager_register_ubin cfg0 st_camera (some camera)).map Prod.fst
        = (binary_manager_register_ubin cfg0
            ((run_ubin cfg0 (init cfg0) [some camera, some cam]).getD (init cfg0))
            (some kernel_str)).map Prod.fst
    ∧ ((run_ubin cfg0 (init cfg0) [some camera, some cam]).getD (init cfg0)).g_bin_count
        = cfg0.USER_BIN_COUNT
    ∧ ubin_scan cfg0
        ((run_ubin cfg0 (init cfg0) [some camera, some cam]).getD (init cfg0)).bin_table
        kernel_str 2 1 = some false := by
  refine ⟨rfl, rfl, rfl, rfl⟩

/-- C15: a successful call of `binary_manager_register_ubin` with the old
count `n` modifies only `g_bin_count` and slot `n + 1`: slot 0 and the slots
`1..n` keep every field, and so does the kernel data. -/
theorem register_ubin_frame (cfg : Config) (st st1 : State) (name : Option (List Nat))
    (r : Int) (h : binary_manager_register_ubin cfg st name = some (r, st1))
    (hr : r ≠ ERROR) :
    st1.g_bin_count = st.g_bin_count + 1
    ∧ (∀ i, i ≠ st.g_bin_count + 1 →
        binary_manager_get_udata st1 i = binary_manager_get_udata st i)
    ∧ binary_manager_get_udata st1 0 = binary_manager_get_udata st 0
    ∧ (∀ i, 1 ≤ i → i ≤ st.g_bin_count →
        binary_manager_get_udata st1 i = binary_manager_get_udata st i)
    ∧ binary_manager_get_kdata st1 = binary_manager_get_kdata st := by
  rcases register_ubin_cases cfg st name (r, st1) h with h1 | ⟨nm, _, _, _, h1⟩
  · exact absurd (Prod.mk.inj h1).1 hr
  · have hst1 := (Prod.mk.inj h1).2
    have hother : ∀ i, i ≠ st.g_bin_count + 1 →
        binary_manager_get_udata st1 i = binary_manager_get_udata st i := by
      intro i hi
      rw [hst1]
      exact Function.update_noteq hi _ _
    refine ⟨by rw [hst1], hother, hother 0 (by omega), fun i _ h2 => hother i (by omega), ?_⟩
    rw [hst1]
    rfl

/-- C15, at an instance: "cam" is registered in slot 2; slot 0 and the slot
of "camera" are unchanged. -/
theorem register_ubin_frame_witness :
    binary_manager_get_udata
        ((binary_manager_register_ubin cfg0 st_camera (some cam)).getD (0, st_camera)).2 0
      = binary_manager_get_udata st_camera 0
    ∧ binary_manager_get_udata
        ((binary_manager_register_ubin cfg0 st_camera (some cam)).getD (0, st_camera)).2 1
      = binary_manager_get_udata st_camera 1 :=
  ⟨(register_ubin_frame cfg0 st_camera
      ((binary_manager_register_ubin cfg0 st_camera (some cam)).getD (0, st_camera)).2
      (some cam) 2 rfl (by decide)).2.2.1,
   (register_ubin_frame cfg0 st_camera
      ((binary_manager_register_ubin cfg0 st_camera (some cam)).getD (0, st_camera)).2
      (some cam) 2 rfl (by decide)).2.2.2.1 1 (by decide) (by decide)⟩

/-- C17: `binary_manager_update_running_state(bin_id)` changes nothing in
the registry when `bin_id <= 0` or when the lookup of the id returns a
negative index; otherwise the only change is that the state of the slot
returned by the lookup becomes `BINARY_RUNNING`: the other fields of that
slot (`bin_id`, `rtcount`, the name among them), every other slot,
`g_bin_count` and the kernel data are unchanged. -/
theorem update_running_state_frame (cfg : Config) (st : State) (bin_id : Int) :
    (bin_id ≤ 0 → (binary_manager_update_running_state cfg st bin_id).1 = st)
    ∧ (binary_manager_get_index_with_binid st bin_id < 0 →
        (binary_manager_update_running_state cfg st bin_id).1 = st)
    ∧ (0 < bin_id → 0 ≤ binary_manager_get_index_with_binid st bin_id →
        binary_manager_get_udata (binary_manager_update_running_state cfg st bin_id).1
            (binary_manager_get_index_with_binid st bin_id).toNat
          = { binary_manager_get_udata st
                (binary_manager_get_index_with_binid st bin_id).toNat with
              state := BINARY_RUNNING }
        ∧ (∀ i, i ≠ (binary_manager_get_index_with_binid st bin_id).toNat →
            binary_manager_get_udata (binary_manager_update_running_state cfg st bin_id).1 i
              = binary_manager_get_udata st i)
        ∧ binary_manager_get_ucount (binary_manager_update_running_state cfg st bin_id).1
            = binary_manager_get_ucount st
        ∧ binary_manager_get_kdata (binary_manager_update_running_state cfg st bin_id).1
            = binary_manager_get_kdata st) := by
  refine ⟨?_, ?_, ?_⟩
  · intro h
    simp only [binary_manager_update_running_state, if_pos h]
  · intro h
    by_cases h0 : bin_id ≤ 0
    · simp only [binary_manager_update_running_state, if_pos h0]
    · simp only [binary_manager_update_running_state, if_neg h0, if_pos h]
  · intro h1 h2
    have h3 : ¬ bin_id ≤ 0 := by omega
    have h4 : ¬ binary_manager_get_index_with_binid st bin_id < 0 := by omega
    simp only [binary_manager_update_running_state, if_neg h3, if_neg h4,
      binary_manager_get_udata, binary_manager_get_ucount, binary_manager_get_kdata,
      Function.update_same, and_true, true_and]
    intro i hi
    exact Function.update_noteq hi _ _

/-- C17, at an instance: for the binary of id 5 in slot 1 only the state of
slot 1 changes; for the unknown id 7 and for the id 0 nothing changes. -/
theorem update_running_state_frame_witness :
    (binary_manager_get_udata (binary_manager_update_running_state cfg0 st_fault 5).1 1
        = { binary_manager_get_udata st_fault 1 with state := BINARY_RUNNING }
      ∧ binary_manager_get_ucount (binary_manager_update_running_state cfg0 st_fault 5).1
        = binary_manager_get_ucount st_fault)
    ∧ (binary_manager_update_running_state cfg0 st_fault 7).1 = st_fault
    ∧ (binary_manager_update_running_state cfg0 st_fault 0).1 = st_fault :=
  ⟨⟨((update_running_state_frame cfg0 st_fault 5).2.2 (by decide) (by decide)).1,
    ((update_running_state_frame cfg0 st_fault 5).2.2 (by decide) (by decide)).2.2.1⟩,
   (update_running_state_frame cfg0 st_fault 7).2.1 (by decide),
   (update_running_state_frame cfg0 st_fault 0).1 (by decide)⟩

/-! ## Properties of the table accesses -/

theorem ubin_scan_slots_bounds (cfg : Config) (tbl : Nat → binmgr_uinfo_t) (name : List Nat)
    (k bin_idx x : Nat) (hx : x ∈ ubin_scan_slots cfg tbl name k bin_idx) :
    bin_idx ≤ x ∧ x < bin_idx + k := by
  induction k generalizing bin_idx with
  | zero => exact absurd hx (List.not_mem_nil _)
  | succ k ih =>
    simp only [ubin_scan_slots] at hx
    rcases List.mem_cons.mp hx with h | h
    · omega
    · cases hr : strncmp (BIN_NAME_mem cfg (tbl bin_idx)) name (strlen name + 1) 0 with
      | none =>
        rw [hr] at h
        exact absurd h (List.not_mem_nil _)
      | some r =>
        rw [hr] at h
        by_cases h0 : r = 0
        · simp only [if_pos h0] at h
          exact absurd h (List.not_mem_nil _)
        · simp only [if_neg h0] at h
          have h1 := ih (bin_idx + 1) h
          omega

theorem register_ubin_slots_bounds (cfg : Config) (st : State) (name : Option (List Nat))
    (x : Nat) (hx : x ∈ register_ubin_slots cfg st name) :
    1 ≤ x ∧ x ≤ cfg.USER_BIN_COUNT := by
  cases name with
  | none => exact absurd hx (List.not_mem_nil _)
  | some nm =>
    by_cases hfull : st.g_bin_count ≥ cfg.USER_BIN_COUNT
    · simp only [register_ubin_slots, if_pos hfull] at hx
      exact absurd hx (List.not_mem_nil _)
    · simp only [register_ubin_slots, if_neg hfull] at hx
      rcases List.mem_append.mp hx with h | h
      · have h1 := ubin_scan_slots_bounds cfg st.bin_table nm st.g_bin_count 1 x h
        omega
      · cases hs : ubin_scan cfg st.bin_table nm st.g_bin_count 1 with
        | none =>
          rw [hs] at h
          exact absurd h (List.not_mem_nil _)
        | some b =>
          rw [hs] at h
          cases b with
          | true => exact absurd h (List.not_mem_nil _)
          | false =>
            have h1 : x = st.g_bin_count + 1 := List.eq_of_mem_replicate h
            omega

theorem register_kpart_slots_bounds (cfg : Config) (st : State) (part_num part_size : Int)
    (x : Nat) (hx : x ∈ register_kpart_slots cfg st part_num part_size) :
    x < cfg.KERNEL_BIN_COUNT := by
  by_cases hc : part_num < 0 ∨ part_size ≤ 0
      ∨ st.kernel_info.part_count ≥ cfg.KERNEL_BIN_COUNT
  · simp only [register_kpart_slots, if_pos hc] at hx
    exact absurd hx (List.not_mem_nil _)
  · simp only [register_kpart_slots, if_neg hc, List.mem_cons, List.mem_singleton,
      List.not_mem_nil, or_false, or_self] at hx
    simp only [not_or, not_le, ge_iff_le] at hc
    omega

theorem register_kpart_bin_table (cfg : Config) (st : State) (part_num part_size : Int) :
    (binary_manager_register_kpart cfg st part_num part_size).bin_table = st.bin_table := by
  by_cases hc : part_num < 0 ∨ part_size ≤ 0
      ∨ st.kernel_info.part_count ≥ cfg.KERNEL_BIN_COUNT
  · simp only [binary_manager_register_kpart, if_pos hc]
  · simp only [binary_manager_register_kpart, if_neg hc]

theorem init_name_end (cfg : Config)
    (hrest : 0 < cfg.LOAD_ATTR_REST + cfg.BIN_VER_MAX + cfg.KERNEL_VER_MAX) (j : Nat) :
    BIN_NAME_mem cfg ((init cfg).bin_table j) cfg.BIN_NAME_MAX = some 0 := by
  simp only [BIN_NAME_mem, init, zero_uinfo, Nat.lt_irrefl, if_false, Nat.sub_self]
  rcases Nat.eq_zero_or_pos cfg.LOAD_ATTR_REST with h1 | h1
  · rcases Nat.eq_zero_or_pos cfg.BIN_VER_MAX with h2 | h2
    · obtain ⟨n, hn⟩ : ∃ n, cfg.KERNEL_VER_MAX = n + 1 :=
        ⟨cfg.KERNEL_VER_MAX - 1, by omega⟩
      simp [h1, h2, hn, List.replicate_succ]
    · obtain ⟨n, hn⟩ : ∃ n, cfg.BIN_VER_MAX = n + 1 := ⟨cfg.BIN_VER_MAX - 1, by omega⟩
      simp [h1, hn, List.replicate_succ]
  · obtain ⟨n, hn⟩ : ∃ n, cfg.LOAD_ATTR_REST = n + 1 := ⟨cfg.LOAD_ATTR_REST - 1, by omega⟩
    simp [hn, List.replicate_succ]

theorem run_calls_name_end (cfg : Config) (calls : List reg_call) (st st1 : State)
    (hz : ∀ j, BIN_NAME_mem cfg (st.bin_table j) cfg.BIN_NAME_MAX = some 0)
    (h : run_calls cfg st calls = some st1) :
    ∀ j, BIN_NAME_mem cfg (st1.bin_table j) cfg.BIN_NAME_MAX = some 0 := by
  induction calls generalizing st with
  | nil =>
    simp only [run_calls, Option.some.injEq] at h
    rw [← h]
    exact hz
  | cons c calls ih =>
    cases c with
    | ubin name =>
      obtain ⟨r, hr, hz1⟩ := register_ubin_defined cfg st name hz
      simp only [run_calls, hr] at h
      exact ih r.2 hz1 h
    | kpart part_num part_size =>
      simp only [run_calls] at h
      apply ih _ _ h
      rw [register_kpart_bin_table]
      exact hz

theorem ubin_scan_congr (cfg : Config) (tbl tbl1 : Nat → binmgr_uinfo_t) (name : List Nat)
    (k bin_idx : Nat) (h : ∀ j, bin_idx ≤ j → j < bin_idx + k → tbl1 j = tbl j) :
    ubin_scan cfg tbl1 name k bin_idx = ubin_scan cfg tbl name k bin_idx := by
  induction k generalizing bin_idx with
  | zero => rfl
  | succ k ih =>
    simp only [ubin_scan]
    rw [h bin_idx (le_refl _) (by omega), ih (bin_idx + 1) (fun j h1 h2 => h j (by omega) (by omega))]

/-- A call of `binary_manager_register_ubin` changes `bin_table` only at the
slots of its access list. -/
theorem register_ubin_writes (cfg : Config) (st : State) (name : Option (List Nat))
    (r : Int × State) (h : binary_manager_register_ubin cfg st name = some r)
    (i : Nat) (hi : i ∉ register_ubin_slots cfg st name) :
    r.2.bin_table i = st.bin_table i := by
  rcases register_ubin_cases cfg st name r h with h1 | ⟨nm, hnm, hlt, hscan, h1⟩
  · rw [h1]
  · rw [h1]
    have hne : i ≠ st.g_bin_count + 1 := by
      intro hie
      apply hi
      rw [hnm]
      simp only [register_ubin_slots, if_neg (Nat.not_le.mpr hlt), hscan, List.mem_append]
      right
      rw [hie]
      exact List.mem_replicate.mpr ⟨by decide, rfl⟩
    exact Function.update_noteq hne _ _

/-- The result of a call of `binary_manager_register_ubin` depends on
`bin_table` only through the slots `1..USER_BIN_COUNT`. -/
theorem register_ubin_reads (cfg : Config) (st st1 : State) (name : Option (List Nat))
    (hg : st1.g_bin_count = st.g_bin_count)
    (htbl : ∀ i, 1 ≤ i → i ≤ cfg.USER_BIN_COUNT → st1.bin_table i = st.bin_table i) :
    (binary_manager_register_ubin cfg st1 name).map Prod.fst
        = (binary_manager_register_ubin cfg st name).map Prod.fst
    ∧ ∀ i, 1 ≤ i → i ≤ cfg.USER_BIN_COUNT →
        (binary_manager_register_ubin cfg st1 name).map (fun r => r.2.bin_table i)
          = (binary_manager_register_ubin cfg st name).map (fun r => r.2.bin_table i) := by
  cases name with
  | none =>
    refine ⟨rfl, fun i h1 h2 => ?_⟩
    show some (st1.bin_table i) = some (st.bin_table i)
    rw [htbl i h1 h2]
  | some nm =>
    by_cases hfull : st.g_bin_count ≥ cfg.USER_BIN_COUNT
    · rw [register_ubin_full cfg st nm hfull, register_ubin_full cfg st1 nm (by rw [hg]; exact hfull)]
      refine ⟨rfl, fun i h1 h2 => ?_⟩
      show some (st1.bin_table i) = some (st.bin_table i)
      rw [htbl i h1 h2]
    · have hlt : st.g_bin_count < cfg.USER_BIN_COUNT := Nat.not_le.mp hfull
      have hsc2 : ubin_scan cfg st1.bin_table nm st.g_bin_count 1
          = ubin_scan cfg st.bin_table nm st.g_bin_count 1 :=
        ubin_scan_congr cfg st.bin_table st1.bin_table nm st.g_bin_count 1
          (fun j h1 h2 => htbl j h1 (by omega))
      have hsc : ubin_scan cfg st1.bin_table nm st1.g_bin_count 1
          = ubin_scan cfg st.bin_table nm st.g_bin_count 1 := by
        rw [hg]
        exact hsc2
      cases hs : ubin_scan cfg st.bin_table nm st.g_bin_count 1 with
      | none =>
        have e1 : binary_manager_register_ubin cfg st (some nm) = none := by
          simp [binary_manager_register_ubin, hfull, hs]
        have e2 : binary_manager_register_ubin cfg st1 (some nm) = none := by
          simp [binary_manager_register_ubin, hg, hfull, hsc2, hs]
        rw [e1, e2]
        exact ⟨rfl, fun _ _ _ => rfl⟩
      | some b =>
        cases b with
        | true =>
          rw [register_ubin_collision cfg st nm hs,
            register_ubin_collision cfg st1 nm (by rw [hsc]; exact hs)]
          refine ⟨rfl, fun i h1 h2 => ?_⟩
          show some (st1.bin_table i) = some (st.bin_table i)
          rw [htbl i h1 h2]
        | false =>
          rw [register_ubin_of_scan_false cfg st nm hlt hs,
            register_ubin_of_scan_false cfg st1 nm (by rw [hg]; exact hlt)
              (by rw [hsc]; exact hs)]
          refine ⟨by simp only [Option.map_some', hg], fun i h1 h2 => ?_⟩
          simp only [Option.map_some', hg, Option.some.injEq]
          by_cases hi : i = st.g_bin_count + 1
          · rw [hi, Function.update_same, Function.update_same,
              htbl (st.g_bin_count + 1) (by omega) (by omega)]
          · rw [Function.update_noteq hi, Function.update_noteq hi, htbl i h1 h2]

/-- A call of `binary_manager_register_kpart` changes `part_info` only at the
indices of its access list. -/
theorem register_kpart_writes (cfg : Config) (st : State) (part_num part_size : Int)
    (i : Nat) (hi : i ∉ register_kpart_slots cfg st part_num part_size) :
    (binary_manager_register_kpart cfg st part_num part_size).kernel_info.part_info i
      = st.kernel_info.part_info i := by
  by_cases hc : 0 ≤ part_num ∧ 0 < part_size
      ∧ st.kernel_info.part_count < cfg.KERNEL_BIN_COUNT
  · have hg : ¬ (part_num < 0 ∨ part_size ≤ 0
        ∨ st.kernel_info.part_count ≥ cfg.KERNEL_BIN_COUNT) := by
      intro hn
      rcases hn with h1 | h1 | h1 <;> omega
    have hne : i ≠ st.kernel_info.part_count := by
      intro hie
      apply hi
      simp only [register_kpart_slots, if_neg hg, hie, List.mem_cons, true_or]
    rw [(register_kpart_accepted cfg st part_num part_size hc).2]
    exact Function.update_noteq hne _ _
  · rw [register_kpart_rejected cfg st part_num part_size hc]

/-- C19: in every state reached from the initial state by calls of
`binary_manager_register_ubin` and `binary_manager_register_kpart`, the table
accesses of the two functions are in bounds. A call of
`binary_manager_register_ubin` changes `bin_table` only at slots of its
access list, which lie in `1..USER_BIN_COUNT`, so that slot 0 and the slots
beyond `USER_BIN_COUNT` are never written; what it returns and what it
leaves in the slots `1..USER_BIN_COUNT` does not depend on the other slots,
so that they are never read. A call of `binary_manager_register_kpart`
changes `part_info` only at indices of its access list, which lie below
`KERNEL_BIN_COUNT`. When the table entry has a byte after `bin_name`, the
bytes read through `BIN_NAME` lie inside the table entry, so that the call
returns. -/
theorem registration_accesses_in_bounds (cfg : Config) (calls : List reg_call) (st : State)
    (h : run_calls cfg (init cfg) calls = some st) :
    (∀ name r, binary_manager_register_ubin cfg st name = some r →
      (∀ i, i ∉ register_ubin_slots cfg st name →
        binary_manager_get_udata r.2 i = binary_manager_get_udata st i)
      ∧ (∀ i, ¬ (1 ≤ i ∧ i ≤ cfg.USER_BIN_COUNT) →
        binary_manager_get_udata r.2 i = binary_manager_get_udata st i))
    ∧ (∀ name i, i ∈ register_ubin_slots cfg st name → 1 ≤ i ∧ i ≤ cfg.USER_BIN_COUNT)
    ∧ (∀ name (st1 : State), st1.g_bin_count = st.g_bin_count →
        (∀ i, 1 ≤ i → i ≤ cfg.USER_BIN_COUNT → st1.bin_table i = st.bin_table i) →
        (binary_manager_register_ubin cfg st1 name).map Prod.fst
            = (binary_manager_register_ubin cfg st name).map Prod.fst
        ∧ ∀ i, 1 ≤ i → i ≤ cfg.USER_BIN_COUNT →
            (binary_manager_register_ubin cfg st1 name).map (fun r => r.2.bin_table i)
              = (binary_manager_register_ubin cfg st name).map (fun r => r.2.bin_table i))
    ∧ (∀ part_num part_size,
        (∀ i, i ∉ register_kpart_slots cfg st part_num part_size →
          (binary_manager_register_kpart cfg st part_num part_size).kernel_info.part_info i
            = st.kernel_info.part_info i)
        ∧ (∀ i, ¬ i < cfg.KERNEL_BIN_COUNT →
          (binary_manager_register_kpart cfg st part_num part_size).kernel_info.part_info i
            = st.kernel_info.part_info i))
    ∧ (∀ part_num part_size i, i ∈ register_kpart_slots cfg st part_num part_size →
        i < cfg.KERNEL_BIN_COUNT)
    ∧ (0 < cfg.LOAD_ATTR_REST + cfg.BIN_VER_MAX + cfg.KERNEL_VER_MAX →
        ∀ name, ∃ r, binary_manager_register_ubin cfg st name = some r) := by
  refine ⟨?_, fun name i hi => register_ubin_slots_bounds cfg st name i hi,
    fun name st1 hg htbl => register_ubin_reads cfg st st1 name hg htbl, ?_,
    fun part_num part_size i hi => register_kpart_slots_bounds cfg st part_num part_size i hi,
    ?_⟩
  · intro name r hr
    refine ⟨fun i hi => register_ubin_writes cfg st name r hr i hi, fun i hi => ?_⟩
    exact register_ubin_writes cfg st name r hr i
      (fun hm => hi (register_ubin_slots_bounds cfg st name i hm))
  · intro part_num part_size
    refine ⟨fun i hi => register_kpart_writes cfg st part_num part_size i hi, fun i hi => ?_⟩
    exact register_kpart_writes cfg st part_num part_size i
      (fun hm => hi (register_kpart_slots_bounds cfg st part_num part_size i hm))
  · intro hrest name
    obtain ⟨r, hr, _⟩ := register_ubin_defined cfg st name
      (run_calls_name_end cfg calls (init cfg) st (init_name_end cfg hrest) h)
    exact ⟨r, hr⟩

/-- C19, at an instance: after "camera", a kernel partition and "cam" the
table of two is full and one partition is stored. The registration of
"kernel" is refused and leaves slot 3, which lies outside the table, and
slot 0 as they are; the registration of a partition writes index 1 and
leaves index 2, which lies outside `part_info`, as it is. -/
theorem registration_accesses_in_bounds_witness :
    binary_manager_get_ucount ((run_calls cfg0 (init cfg0) calls1).getD (init cfg0))
        = cfg0.USER_BIN_COUNT
    ∧ (∀ r, binary_manager_register_ubin cfg0
          ((run_calls cfg0 (init cfg0) calls1).getD (init cfg0)) (some kernel_str) = some r →
        binary_manager_get_udata r.2 3
            = binary_manager_get_udata ((run_calls cfg0 (init cfg0) calls1).getD (init cfg0)) 3
        ∧ binary_manager_get_udata r.2 0
            = binary_manager_get_udata ((run_calls cfg0 (init cfg0) calls1).getD (init cfg0)) 0)
    ∧ register_kpart_slots cfg0
        ((run_calls cfg0 (init cfg0) calls1).getD (init cfg0)) 5 20 = [1, 1]
    ∧ (binary_manager_register_kpart cfg0
          ((run_calls cfg0 (init cfg0) calls1).getD (init cfg0)) 5 20).kernel_info.part_info 2
        = ((run_calls cfg0 (init cfg0) calls1).getD (init cfg0)).kernel_info.part_info 2 :=
  ⟨rfl,
   fun r hr =>
    ⟨((registration_accesses_in_bounds cfg0 calls1
        ((run_calls cfg0 (init cfg0) calls1).getD (init cfg0)) rfl).1
          (some kernel_str) r hr).2 3 (by decide),
     ((registration_accesses_in_bounds cfg0 calls1
        ((run_calls cfg0 (init cfg0) calls1).getD (init cfg0)) rfl).1
          (some kernel_str) r hr).2 0 (by decide)⟩,
   rfl,
   ((registration_accesses_in_bounds cfg0 calls1
      ((run_calls cfg0 (init cfg0) calls1).getD (init cfg0)) rfl).2.2.2.1 5 20).2 2
        (by decide)⟩

/-! ## The comparison of names is an exact match -/

theorem strncmp_differs (s1 : Nat → Option Nat) (s2 : List Nat) (n i j c : Nat)
    (hij : i ≤ j) (hjn : j < i + n)
    (hsame : ∀ k, i ≤ k → k < j → s1 k = some (s2.getD k 0) ∧ s2.getD k 0 ≠ 0)
    (hj : s1 j = some c) (hc : c ≠ s2.getD j 0) :
    ∃ r, strncmp s1 s2 n i = some r ∧ r ≠ 0 := by
  induction n generalizing i with
  | zero => omega
  | succ n ih =>
    by_cases hi : i = j
    · subst hi
      simp only [strncmp, hj, if_pos hc]
      refine ⟨_, rfl, ?_⟩
      omega
    · have h1 := hsame i (le_refl _) (by omega)
      simp only [strncmp, h1.1, ne_eq, not_true_eq_false, if_false, if_neg h1.2]
      exact ih (i + 1) (by omega) (by omega) (fun k hk1 hk2 => hsame k (by omega) hk2)

theorem c_string_nil : c_string [] = [] := rfl

theorem c_string_cons_zero (cs : List Nat) : c_string (0 :: cs) = [] := by
  simp [c_string, List.takeWhile]

theorem c_string_cons (c : Nat) (cs : List Nat) (hc : c ≠ 0) :
    c_string (c :: cs) = c :: c_string cs := by
  simp [c_string, List.takeWhile, hc]

theorem strlen_eq_c_string (s : List Nat) : strlen s = (c_string s).length :=
  strlen_eq_takeWhile s

/-- Two strings that differ have a first position at which they differ, not
after the end of either of them. -/
theorem first_difference (name reg : List Nat) (hne : c_string name ≠ c_string reg) :
    ∃ j, j ≤ strlen name ∧ j ≤ strlen reg
      ∧ (∀ k, k < j → reg.getD k 0 = name.getD k 0 ∧ name.getD k 0 ≠ 0)
      ∧ (if j < strlen reg then reg.getD j 0 else 0) ≠ name.getD j 0 := by
  induction name generalizing reg with
  | nil =>
    cases reg with
    | nil => exact absurd rfl hne
    | cons c cs =>
      by_cases hc : c = 0
      · rw [hc, c_string_cons_zero] at hne
        exact absurd rfl hne
      · refine ⟨0, Nat.le_refl _, Nat.zero_le _, fun k hk => absurd hk (Nat.not_lt_zero _), ?_⟩
        simp only [strlen, if_neg hc, Nat.succ_pos, if_true]
        exact hc
  | cons a as ih =>
    by_cases ha : a = 0
    · cases reg with
      | nil =>
        rw [ha, c_string_cons_zero] at hne
        exact absurd rfl hne
      | cons c cs =>
        by_cases hc : c = 0
        · rw [ha, hc, c_string_cons_zero] at hne
          exact absurd rfl hne
        · refine ⟨0, Nat.zero_le _, Nat.zero_le _,
            fun k hk => absurd hk (Nat.not_lt_zero _), ?_⟩
          simp only [strlen, if_neg hc, Nat.succ_pos, if_true]
          show c ≠ a
          rw [ha]
          exact hc
    · cases reg with
      | nil =>
        refine ⟨0, Nat.zero_le _, Nat.zero_le _, fun k hk => absurd hk (Nat.not_lt_zero _), ?_⟩
        simp only [strlen, Nat.lt_irrefl, if_false]
        show (0 : Nat) ≠ a
        exact fun h => ha h.symm
      | cons c cs =>
        by_cases hc : c = 0
        · refine ⟨0, Nat.zero_le _, Nat.zero_le _,
            fun k hk => absurd hk (Nat.not_lt_zero _), ?_⟩
          simp only [strlen, if_pos hc, Nat.lt_irrefl, if_false]
          show (0 : Nat) ≠ a
          exact fun h => ha h.symm
        · by_cases hca : c = a
          · rw [c_string_cons a as ha, c_string_cons c cs hc, hca] at hne
            have hne1 : c_string as ≠ c_string cs := fun h => hne (by rw [h])
            obtain ⟨j, hj1, hj2, hj3, hj4⟩ := ih cs hne1
            refine ⟨j + 1, ?_, ?_, ?_, ?_⟩
            · simp only [strlen, if_neg ha]
              omega
            · simp only [strlen, if_neg hc]
              omega
            · intro k hk
              cases k with
              | zero => exact ⟨hca, ha⟩
              | succ k => exact hj3 k (by omega)
            · simp only [strlen, if_neg hc]
              by_cases hlt : j < strlen cs
              · rw [if_pos (by omega : j + 1 < strlen cs + 1)]
                rw [if_pos hlt] at hj4
                exact hj4
              · rw [if_neg (by omega : ¬ j + 1 < strlen cs + 1)]
                rw [if_neg hlt] at hj4
                exact hj4
          · refine ⟨0, Nat.zero_le _, Nat.zero_le _,
              fun k hk => absurd hk (Nat.not_lt_zero _), ?_⟩
            simp only [strlen, if_neg hc, Nat.succ_pos, if_true]
            exact hca

/-- A slot that stores the copy of a name does not compare equal to a
different name shorter than `BIN_NAME_MAX`. -/
theorem strncmp_stored_other (cfg : Config) (u : binmgr_uinfo_t) (reg name : List Nat)
    (hname : strlen name < cfg.BIN_NAME_MAX)
    (hstored : u.load_attr.bin_name = strncpy reg cfg.BIN_NAME_MAX)
    (hne : c_string name ≠ c_string reg) :
    ∃ r, strncmp (BIN_NAME_mem cfg u) name (strlen name + 1) 0 = some r ∧ r ≠ 0 := by
  obtain ⟨j, hj1, hj2, hj3, hj4⟩ := first_difference name reg hne
  have hmem : ∀ k, k ≤ strlen name →
      BIN_NAME_mem cfg u k = some (if k < strlen reg then reg.getD k 0 else 0) := by
    intro k hk
    have hkm : k < cfg.BIN_NAME_MAX := by omega
    simp only [BIN_NAME_mem, if_pos hkm, hstored, getD_strncpy reg _ k hkm]
  apply strncmp_differs (BIN_NAME_mem cfg u) name (strlen name + 1) 0 j _
    (Nat.zero_le _) (by omega) _ (hmem j hj1) hj4
  intro k _ hk
  rw [hmem k (by omega), if_pos (by omega : k < strlen reg)]
  exact ⟨by rw [(hj3 k hk).1], (hj3 k hk).2⟩

theorem strncpy_c_string (s1 s2 : List Nat) (n : Nat) (h : c_string s1 = c_string s2) :
    strncpy s1 n = strncpy s2 n := by
  have h1 : strlen s1 = strlen s2 := by
    rw [strlen_eq_c_string, strlen_eq_c_string, h]
  rw [strncpy_eq, strncpy_eq, h1]
  unfold c_string at h
  rw [h]

theorem append_ne_self (l t : List Nat) (ht : t ≠ []) : l ≠ l ++ t := by
  intro h
  have hl := congrArg List.length h
  rw [List.length_append] at hl
  have ht0 : t.length = 0 := by omega
  exact ht (List.length_eq_zero.mp ht0)

theorem ubin_scan_match (cfg : Config) (tbl : Nat → binmgr_uinfo_t) (name : List Nat)
    (k bin_idx : Nat)
    (hdef : ∀ j, bin_idx ≤ j → j < bin_idx + k →
      ∃ r, strncmp (BIN_NAME_mem cfg (tbl j)) name (strlen name + 1) 0 = some r)
    (hex : ∃ j, bin_idx ≤ j ∧ j < bin_idx + k
      ∧ strncmp (BIN_NAME_mem cfg (tbl j)) name (strlen name + 1) 0 = some 0) :
    ubin_scan cfg tbl name k bin_idx = some true := by
  induction k generalizing bin_idx with
  | zero =>
    obtain ⟨j, h1, h2, _⟩ := hex
    omega
  | succ k ih =>
    obtain ⟨r, hr⟩ := hdef bin_idx (le_refl _) (by omega)
    simp only [ubin_scan, hr]
    by_cases h0 : r = 0
    · rw [if_pos h0]
    · rw [if_neg h0]
      apply ih (bin_idx + 1) (fun j h1 h2 => hdef j (by omega) (by omega))
      obtain ⟨j, h1, h2, h3⟩ := hex
      have hj : j ≠ bin_idx := by
        intro hj
        rw [hj, hr] at h3
        exact h0 (Option.some.inj h3)
      exact ⟨j, by omega, by omega, h3⟩

/-- The comparison of a name shorter than `BIN_NAME_MAX` with a slot that
stores the copy of a registered name is defined, and it returns 0 exactly
when the two strings are equal. -/
theorem strncmp_stored_iff (cfg : Config) (u : binmgr_uinfo_t) (reg name : List Nat)
    (hname : strlen name < cfg.BIN_NAME_MAX)
    (hstored : u.load_attr.bin_name = strncpy reg cfg.BIN_NAME_MAX) :
    (∃ r, strncmp (BIN_NAME_mem cfg u) name (strlen name + 1) 0 = some r)
    ∧ (strncmp (BIN_NAME_mem cfg u) name (strlen name + 1) 0 = some 0
        ↔ c_string name = c_string reg) := by
  by_cases heq : c_string name = c_string reg
  · have h0 : strncmp (BIN_NAME_mem cfg u) name (strlen name + 1) 0 = some 0 := by
      apply strncmp_stored_name cfg u name hname
      rw [hstored]
      exact strncpy_c_string reg name _ heq.symm
    exact ⟨⟨0, h0⟩, fun _ => heq, fun _ => h0⟩
  · obtain ⟨r, hr, hr0⟩ := strncmp_stored_other cfg u reg name hname hstored heq
    refine ⟨⟨r, hr⟩, fun h0 => ?_, fun h => absurd h heq⟩
    rw [h0] at hr
    exact absurd (Option.some.inj hr).symm hr0

/-- The copy of a string shorter than the buffer holds the string. -/
theorem c_string_strncpy (s : List Nat) (n : Nat) (h : strlen s < n) :
    c_string (strncpy s n) = c_string s := by
  induction n generalizing s with
  | zero => omega
  | succ n ih =>
    cases s with
    | nil =>
      rw [strncpy_nil, List.replicate_succ, c_string_cons_zero, c_string_nil]
    | cons c cs =>
      by_cases hc : c = 0
      · simp only [strncpy, if_pos hc]
        rw [List.replicate_succ, c_string_cons_zero, hc, c_string_cons_zero]
      · simp only [strncpy, if_neg hc]
        simp only [strlen, if_neg hc] at h
        rw [c_string_cons c _ hc, c_string_cons c cs hc, ih cs (by omega)]

/-- C16: the collision test of `binary_manager_register_ubin` is an exact
match for a name shorter than `BIN_NAME_MAX`. In a table that is not full
and whose slots `1..g_bin_count` store the copies of the registered names:
when one of the registered names is equal to the name, the call returns
`ERROR` and changes nothing; when none is equal, and so when every
registered name is a proper initial part of the name or has the name as a
proper initial part ("cam" and "camera"), the scan finds no collision and
the name is registered in the new slot `g_bin_count + 1`, the count becoming
`g_bin_count + 1` and the registered slots keeping their contents. -/
theorem register_ubin_exact_match (cfg : Config) (st : State) (name : List Nat)
    (regs : Nat → List Nat)
    (hlt : st.g_bin_count < cfg.USER_BIN_COUNT) (hname : strlen name < cfg.BIN_NAME_MAX)
    (hslots : ∀ i, 1 ≤ i → i ≤ st.g_bin_count →
      (st.bin_table i).load_attr.bin_name = strncpy (regs i) cfg.BIN_NAME_MAX) :
    ((∃ i, 1 ≤ i ∧ i ≤ st.g_bin_count ∧ c_string name = c_string (regs i)) →
      ubin_scan cfg st.bin_table name st.g_bin_count 1 = some true
      ∧ binary_manager_register_ubin cfg st (some name) = some (ERROR, st))
    ∧ (((∀ i, 1 ≤ i → i ≤ st.g_bin_count → c_string name ≠ c_string (regs i))
        ∨ (∀ i, 1 ≤ i → i ≤ st.g_bin_count →
            (∃ t, t ≠ [] ∧ c_string (regs i) = c_string name ++ t)
            ∨ (∃ t, t ≠ [] ∧ c_string name = c_string (regs i) ++ t))) →
      ubin_scan cfg st.bin_table name st.g_bin_count 1 = some false
      ∧ ∃ st1, binary_manager_register_ubin cfg st (some name)
            = some (((st.g_bin_count + 1 : Nat) : Int), st1)
        ∧ binary_manager_get_ucount st1 = st.g_bin_count + 1
        ∧ (binary_manager_get_udata st1 (st.g_bin_count + 1)).load_attr.bin_name
            = strncpy name cfg.BIN_NAME_MAX
        ∧ c_string (binary_manager_get_udata st1 (st.g_bin_count + 1)).load_attr.bin_name
            = c_string name
        ∧ (binary_manager_get_udata st1 (st.g_bin_count + 1)).state = BINARY_INACTIVE
        ∧ (binary_manager_get_udata st1 (st.g_bin_count + 1)).bin_id = -1
        ∧ ∀ i, i ≤ st.g_bin_count →
            binary_manager_get_udata st1 i = binary_manager_get_udata st i) := by
  constructor
  · rintro ⟨i, hi1, hi2, heq⟩
    have hscan : ubin_scan cfg st.bin_table name st.g_bin_count 1 = some true := by
      apply ubin_scan_match
      · intro j h1 h2
        exact (strncmp_stored_iff cfg (st.bin_table j) (regs j) name hname
          (hslots j h1 (by omega))).1
      · exact ⟨i, hi1, by omega,
          (strncmp_stored_iff cfg (st.bin_table i) (regs i) name hname
            (hslots i hi1 hi2)).2.mpr heq⟩
    exact ⟨hscan, register_ubin_collision cfg st name hscan⟩
  · intro hcases
    have hne : ∀ i, 1 ≤ i → i ≤ st.g_bin_count → c_string name ≠ c_string (regs i) := by
      rcases hcases with h | h
      · exact h
      · intro i h1 h2
        rcases h i h1 h2 with ⟨t, ht, he⟩ | ⟨t, ht, he⟩
        · rw [he]
          exact append_ne_self _ t ht
        · rw [he]
          exact fun h3 => append_ne_self _ t ht h3.symm
    have hscan : ubin_scan cfg st.bin_table name st.g_bin_count 1 = some false := by
      apply ubin_scan_no_match
      intro j h1 h2
      exact strncmp_stored_other cfg (st.bin_table j) (regs j) name hname
        (hslots j h1 (by omega)) (hne j h1 (by omega))
    refine ⟨hscan, _, register_ubin_of_scan_false cfg st name hlt hscan, rfl, ?_, ?_, ?_, ?_, ?_⟩
    · simp only [binary_manager_get_udata, Function.update_same]
    · simp only [binary_manager_get_udata, Function.update_same]
      exact c_string_strncpy name cfg.BIN_NAME_MAX hname
    · simp only [binary_manager_get_udata, Function.update_same]
    · simp only [binary_manager_get_udata, Function.update_same]
    · intro i hi
      simp only [binary_manager_get_udata]
      exact Function.update_noteq (by omega) _ _

/-- C16, at an instance: with "camera" in slot 1, "cam" is no collision and
is registered in slot 2; "camera" itself is a collision. -/
theorem register_ubin_exact_match_witness :
    (ubin_scan cfg0 st_camera.bin_table cam st_camera.g_bin_count 1 = some false
      ∧ ∃ st1, binary_manager_register_ubin cfg0 st_camera (some cam)
            = some (((st_camera.g_bin_count + 1 : Nat) : Int), st1)
        ∧ binary_manager_get_ucount st1 = st_camera.g_bin_count + 1
        ∧ (binary_manager_get_udata st1 (st_camera.g_bin_count + 1)).load_attr.bin_name
            = strncpy cam cfg0.BIN_NAME_MAX
        ∧ c_string (binary_manager_get_udata st1 (st_camera.g_bin_count + 1)).load_attr.bin_name
            = c_string cam
        ∧ (binary_manager_get_udata st1 (st_camera.g_bin_count + 1)).state = BINARY_INACTIVE
        ∧ (binary_manager_get_udata st1 (st_camera.g_bin_count + 1)).bin_id = -1
        ∧ ∀ i, i ≤ st_camera.g_bin_count →
            binary_manager_get_udata st1 i = binary_manager_get_udata st_camera i)
    ∧ binary_manager_register_ubin cfg0 st_camera (some camera) = some (ERROR, st_camera) :=
  ⟨(register_ubin_exact_match cfg0 st_camera cam (fun _ => camera) (by decide) (by decide)
      (fun i h1 h2 => by
        have hi : i = 1 := Nat.le_antisymm h2 h1
        subst hi
        rfl)).2
      (Or.inr (fun _ _ _ => Or.inl ⟨[101, 114, 97], by decide, by decide⟩)),
   ((register_ubin_exact_match cfg0 st_camera camera (fun _ => camera) (by decide) (by decide)
      (fun i h1 h2 => by
        have hi : i = 1 := Nat.le_antisymm h2 h1
        subst hi
        rfl)).1 ⟨1, by decide, by decide, rfl⟩).2⟩

end BinaryManager
